import Mathlib

/-!
Verification of the ANGSPE publications scraper (`scraper.py`).

The development is a shallow embedding of the scraping pipeline:

* Python strings are modelled as `String`/`List Char`; the handful of string
  primitives the code uses (`lower`, `strip`, `split`, `join`, `replace`,
  substring tests) are given executable Lean models.  `str.lower` is modelled
  on the ASCII range, which covers every string the claims quantify over
  concretely and every character class the code branches on.
* The two regular expressions of the code (file sizes, dates) are compiled by
  hand into backtracking-free matchers; comments at each definition record why
  the compilation is faithful to Python's leftmost-match greedy semantics.
* DOM access through BeautifulSoup cannot be embedded; a page is therefore
  modelled by the exact data the scraper reads from the DOM: the list of
  matched publication sections (each abstracted to its first heading, its
  anchor hrefs and its text), the list of all anchors (href, text, ancestor
  texts), and the page's full text.
* Python `float` arithmetic in the analyzer is modelled by `ℚ`; on the inputs
  appearing in the claims every intermediate value is exactly representable,
  so the idealization is exact there.
* The orchestrator's I/O (network fetch, JSON/CSV writes) is modelled by an
  explicit fetch outcome and by the snapshot value left on disk after a run.
* Exceptions that the code can actually raise (the `TypeError` in the
  analyzer's latest-publication loop) are modelled with `Except`.
-/

namespace AngspeScraper

/-! ## Python character and string primitives -/

/-- The whitespace characters of Python's `str.split` / `str.strip` / `\s`
(ASCII range). -/
def pyIsSpace (c : Char) : Bool :=
  c = ' ' || c = '\t' || c = '\n' || c = '\x0b' || c = '\x0c' || c = '\r'

/-- ASCII uppercase/lowercase pairs, the part of `str.lower` exercised here. -/
def asciiUpperLower : List (Char × Char) :=
  [('A', 'a'), ('B', 'b'), ('C', 'c'), ('D', 'd'), ('E', 'e'), ('F', 'f'),
   ('G', 'g'), ('H', 'h'), ('I', 'i'), ('J', 'j'), ('K', 'k'), ('L', 'l'),
   ('M', 'm'), ('N', 'n'), ('O', 'o'), ('P', 'p'), ('Q', 'q'), ('R', 'r'),
   ('S', 's'), ('T', 't'), ('U', 'u'), ('V', 'v'), ('W', 'w'), ('X', 'x'),
   ('Y', 'y'), ('Z', 'z')]

/-- Model of Python `str.lower` on one character (ASCII range). -/
def pyLowerChar (c : Char) : Char :=
  ((asciiUpperLower.find? (fun p => p.1 = c)).map Prod.snd).getD c

/-- Model of Python `str.lower`. -/
def pyLower (l : List Char) : List Char := l.map pyLowerChar

/-- Model of Python `str.strip()` (no argument: strips whitespace). -/
def pyStrip (l : List Char) : List Char :=
  ((l.dropWhile pyIsSpace).reverse.dropWhile pyIsSpace).reverse

/-- Model of Python `str.strip()` at `String` level. -/
def pyStripStr (s : String) : String := String.mk (pyStrip s.data)

/-- Python's `pat in s` substring test on character lists. -/
def isInfixList (pat : List Char) : List Char → Bool
  | [] => pat.isEmpty
  | c :: r => pat.isPrefixOf (c :: r) || isInfixList pat r

/-- Python's `pat in s` substring test on strings. -/
def isInfixStr (pat s : String) : Bool := isInfixList pat.data s.data

/-- Fueled model of Python `str.split()`; the fuel is only a structural
recursion device, `pySplit` instantiates it with the list's length, which
always suffices. -/
def pySplitF : Nat → List Char → List (List Char)
  | _, [] => []
  | 0, _ => []
  | fuel + 1, c :: r =>
    if pyIsSpace c then pySplitF fuel r
    else (c :: r.takeWhile (fun d => !pyIsSpace d)) ::
         pySplitF fuel (r.dropWhile (fun d => !pyIsSpace d))

/-- Model of Python `str.split()` (split on whitespace runs, dropping empty
pieces). -/
def pySplit (l : List Char) : List (List Char) := pySplitF l.length l

/-- Model of Python `' '.join(words)`. -/
def joinWords : List (List Char) → List Char
  | [] => []
  | [w] => w
  | w :: ws => w ++ ' ' :: joinWords ws

/-- Helper for `listReplace`, structurally recursive: the `Nat` argument is
the number of already-matched characters still to be consumed after a
replacement (Python's scan resumes after the replaced segment). -/
def listReplaceAux (pat rep : List Char) : List Char → Nat → List Char
  | [], _ => []
  | _ :: rest, k + 1 => listReplaceAux pat rep rest k
  | c :: rest, 0 =>
    if pat ≠ [] ∧ pat.isPrefixOf (c :: rest) then
      rep ++ listReplaceAux pat rep rest (pat.length - 1)
    else
      c :: listReplaceAux pat rep rest 0

/-- Model of Python `str.replace(pat, rep)`: scans left to right, replacing
non-overlapping occurrences, resuming after each replacement. -/
def listReplace (pat rep : List Char) (l : List Char) : List Char :=
  listReplaceAux pat rep l 0

/-- Python's `string.punctuation` constant. -/
def pythonPunctuation : List Char :=
  "!\"#$%&\x27()*+,-./:;<=>?@[\\]^_\x60\x7b|\x7d~".data

/-- The characters removed by `_normalize_title`'s translator:
`string.punctuation` with the hyphen and the period removed
(`string.punctuation.replace('-', '').replace('.', '')`). -/
def strippedPunctuation : List Char :=
  pythonPunctuation.filter (fun c => c ≠ '-' && c ≠ '.')

/-! ## Title normalizer (`_normalize_title`, scraper.py lines 113-134) -/

/-- The fixed substitution source `"rapport sur l"`. -/
def rapportPat : List Char := "rapport sur l".data

/-- The fixed substitution target `"rapport sur le"`. -/
def rapportRep : List Char := "rapport sur le".data

/-- The five successive transformations of `_normalize_title` on the
character list of a non-empty title:
`title.lower().strip()`, removal of punctuation (except `-` and `.`),
`' '.join(·.split())`, `.replace('rapport sur l', 'rapport sur le')`,
`.replace('  ', ' ')`. -/
def normalizeList (l : List Char) : List Char :=
  let n1 := pyStrip (pyLower l)
  let n2 := n1.filter (fun c => !strippedPunctuation.contains c)
  let n3 := joinWords (pySplit n2)
  let n4 := listReplace rapportPat rapportRep n3
  listReplace [' ', ' '] [' '] n4

/-- `_normalize_title` (scraper.py lines 113-134). -/
def _normalize_title (title : String) : String :=
  if title = "" then "" else String.mk (normalizeList title.data)

/-! ## File-size extraction (`extract_file_size`, scraper.py lines 257-274)

The code searches, case-insensitively, for
`(\d+(?:\.\d+)?)\s*(Mo|MB|Go|GB|ko|KB|To|TB)` and, when that pattern has no
match anywhere, for the same pattern with `,` in place of `.`.  The matcher
below compiles one such pattern (parameterized by the decimal separator) into
a backtracking-free scan.  Faithfulness to Python's leftmost greedy search:

* `\d+` is greedy; a shorter digit run leaves a digit as the next character,
  which neither `\.\d+`, `\s*` (matching empty) nor the unit can consume, so
  backtracking `\d+` never succeeds and taking the maximal run is complete.
* `(?:\.\d+)?` is greedy; the same argument applies to its digit run, and if
  a separator followed by a digit is present but the fraction is skipped, the
  next character is the separator, which `\s*` and the unit cannot consume.
* `\s*` is greedy; the unit starts with a letter, which is not whitespace, so
  consuming fewer whitespace characters never helps.
-/

/-- The lowercase two-character units of the size pattern
`Mo|MB|Go|GB|ko|KB|To|TB` (the regex is compiled with `re.IGNORECASE`). -/
def sizeUnits : List (Char × Char) :=
  [('m', 'o'), ('m', 'b'), ('g', 'o'), ('g', 'b'),
   ('k', 'o'), ('k', 'b'), ('t', 'o'), ('t', 'b')]

/-- Case-insensitive test of a two-character unit. -/
def isUnitPair (a b : Char) : Bool :=
  sizeUnits.contains (pyLowerChar a, pyLowerChar b)

/-- The `\s*(unit)` tail of the size pattern: skip the (greedy) whitespace run
and read a two-character unit. -/
def unitHead (rest2 : List Char) : Option (List Char) :=
  match rest2.dropWhile pyIsSpace with
  | a :: b :: _ => if isUnitPair a b then some [a, b] else none
  | _ => none

/-- Match the size pattern anchored at the start of `l`; `decSep` is `.` for
the first source pattern and `,` for the second.  Returns the number group
and the unit group (in original case). -/
def sizeHere (decSep : Char) (l : List Char) : Option (List Char × List Char) :=
  let ds := l.takeWhile Char.isDigit
  if ds.isEmpty then none
  else
    match l.drop ds.length with
    | c :: r2 =>
      if c = decSep then
        let fs := r2.takeWhile Char.isDigit
        if fs.isEmpty then (unitHead (c :: r2)).map (fun u => (ds, u))
        else (unitHead (r2.drop fs.length)).map (fun u => (ds ++ c :: fs, u))
      else (unitHead (c :: r2)).map (fun u => (ds, u))
    | [] => (unitHead []).map (fun u => (ds, u))

/-- `re.search` of the size pattern: try every start position left to right. -/
def sizeSearch (decSep : Char) : List Char → Option (List Char × List Char)
  | [] => none
  | c :: rest => (sizeHere decSep (c :: rest)).orElse (fun _ => sizeSearch decSep rest)

/-- `extract_file_size` (scraper.py lines 257-274): the `.`-pattern is tried
over the whole text first, then the `,`-pattern; a match is reassembled as
`f"{size} {unit}"`. -/
def extract_file_size (text : String) : Option String :=
  if text = "" then none
  else
    match sizeSearch '.' text.data with
    | some (num, unit) => some (String.mk (num ++ ' ' :: unit))
    | none =>
      match sizeSearch ',' text.data with
      | some (num, unit) => some (String.mk (num ++ ' ' :: unit))
      | none => none

/-! ## Date extraction (`extract_date_from_text`, scraper.py lines 285-305)

Three patterns are tried in order over the whole text:
`(\d{1,2})/(\d{1,2})/(\d{4})`, `(\d{1,2})-(\d{1,2})-(\d{4})`, and
`Posté le (\d{1,2})/(\d{1,2})/(\d{4})`; the first pattern with a match wins
and the three groups are always reassembled with `/` separators.
`\d{1,2}` is greedy with backtracking: two digits are tried before one, and
the day alternatives are tried before the month alternatives at each start
position, exactly as below. -/

/-- Match exactly `k` digits at the start of `l`. -/
def exactDigits (k : Nat) (l : List Char) : Option (List Char × List Char) :=
  let ds := l.take k
  if ds.length = k && ds.all Char.isDigit then some (ds, l.drop k) else none

/-- Match `\d{d1len} sep \d{d2len} sep \d{4}` anchored at the start of `l`. -/
def dateHereWith (d1len d2len : Nat) (sep : Char) (l : List Char) :
    Option (List Char × List Char × List Char) :=
  match exactDigits d1len l with
  | none => none
  | some (d, r1) =>
    match r1 with
    | [] => none
    | c1 :: r2 =>
      if c1 = sep then
        match exactDigits d2len r2 with
        | none => none
        | some (m, r3) =>
          match r3 with
          | [] => none
          | c2 :: r4 =>
            if c2 = sep then
              match exactDigits 4 r4 with
              | none => none
              | some (y, _) => some (d, m, y)
            else none
      else none

/-- Match `(\d{1,2})sep(\d{1,2})sep(\d{4})` anchored at the start of `l`,
with the greedy backtracking order of `\d{1,2}`. -/
def dateHere (sep : Char) (l : List Char) : Option (List Char × List Char × List Char) :=
  match dateHereWith 2 2 sep l with
  | some r => some r
  | none =>
    match dateHereWith 2 1 sep l with
    | some r => some r
    | none =>
      match dateHereWith 1 2 sep l with
      | some r => some r
      | none => dateHereWith 1 1 sep l

/-- `re.search` of the date pattern. -/
def dateSearch (sep : Char) : List Char → Option (List Char × List Char × List Char)
  | [] => none
  | c :: rest => (dateHere sep (c :: rest)).orElse (fun _ => dateSearch sep rest)

/-- The literal prefix of the third date pattern. -/
def postePat : List Char := "Posté le ".data

/-- Match `Posté le (\d{1,2})/(\d{1,2})/(\d{4})` anchored at the start. -/
def posteHere (l : List Char) : Option (List Char × List Char × List Char) :=
  if postePat.isPrefixOf l then dateHere '/' (l.drop postePat.length) else none

/-- `re.search` of the `Posté le` pattern. -/
def posteSearch : List Char → Option (List Char × List Char × List Char)
  | [] => none
  | c :: rest => (posteHere (c :: rest)).orElse (fun _ => posteSearch rest)

/-- Reassemble the three captured groups as `f"{d}/{m}/{y}"` — both branches
of the source do exactly this, so hyphens are never preserved. -/
def formatDate (r : List Char × List Char × List Char) : String :=
  String.mk (r.1 ++ '/' :: r.2.1 ++ '/' :: r.2.2)

/-- `extract_date_from_text` (scraper.py lines 285-305). -/
def extract_date_from_text (text : String) : Option String :=
  if text = "" then none
  else
    match dateSearch '/' text.data with
    | some r => some (formatDate r)
    | none =>
      match dateSearch '-' text.data with
      | some r => some (formatDate r)
      | none =>
        match posteSearch text.data with
        | some r => some (formatDate r)
        | none => none

/-! ## Category extraction (scraper.py lines 307-322) -/

/-- The ordered label list of `extract_category_from_text`. -/
def categoryLabels : List String :=
  ["Rapport d\x27activités", "Autres rapports", "Publications", "Documents"]

/-- `extract_category_from_text` (scraper.py lines 316-322): first label that
is a literal substring of the text, else the sentinel. -/
def extract_category_from_text (text : String) : String :=
  match categoryLabels.find? (fun cat => isInfixStr cat text) with
  | some cat => cat
  | none => "Non classé"

/-! ## Data model -/

/-- A publication record, the dict built by the two record extractors and by
`alternative_parsing`.  `file_size` and `date_posted` are `None`-able in the
source; `category` and `file_type` are always set to a string. -/
structure Publication where
  title : String
  download_url : String
  file_size : Option String
  date_posted : Option String
  category : String
  file_type : String
deriving DecidableEq, Repr

/-- The scraper's base URL (`self.base_url`). -/
def base_url : String := "https://angspe.ma"

/-- Python's `s.startswith(pre)` on character lists. -/
def strStartsWith (pre s : String) : Bool := pre.data.isPrefixOf s.data

/-- Model of `urllib.parse.urljoin(base, href)` restricted to the URL shapes
that occur here (an already-absolute `http(s)` URL, a root-relative path, or
a bare relative path against a base with an empty path). -/
def urljoin (base href : String) : String :=
  if strStartsWith "http://" href || strStartsWith "https://" href then href
  else if strStartsWith "/" href then base ++ href
  else base ++ "/" ++ href

/-! ## Record extractor, link entry point
(`extract_publication_info`, scraper.py lines 136-181)

An anchor element is abstracted to exactly the data the function reads from
the DOM: its `href`, its own text, the text of the first heading found in its
parent (if the parent exists and contains one, already whitespace-stripped as
`get_text(strip=True)` produces it), and the texts of its ancestors in
`find_parents()` order (the first entry being the direct parent). -/

structure Link where
  href : String
  text : String
  parentHeading : Option String
  ancestorTexts : List String
deriving DecidableEq, Repr

/-- `extract_date` (scraper.py lines 276-283): first date found in the
element's own text or in the texts of its first three ancestors. -/
def extract_date (link : Link) : Option String :=
  (link.text :: link.ancestorTexts.take 3).findSome? extract_date_from_text

/-- The three trigger labels of `extract_category` (scraper.py line 312). -/
def categoryTriggers : List String :=
  ["Rapport d\x27activités", "Autres rapports", "Publications"]

/-- `extract_category` (scraper.py lines 307-314): walk the ancestors; at the
first one whose text contains a trigger label, classify that text; otherwise
the sentinel. -/
def extract_category (link : Link) : String :=
  match link.ancestorTexts.findSome? (fun parentText =>
      if categoryTriggers.any (fun cat => isInfixStr cat parentText) then
        some (extract_category_from_text parentText)
      else none) with
  | some c => c
  | none => "Non classé"

/-- `extract_publication_info` (scraper.py lines 136-181).  The `try/except`
wrapper of the source only fires on exceptions, which the modelled operations
cannot raise; `None` is returned exactly when the href is empty. -/
def extract_publication_info (link : Link) : Option Publication :=
  if link.href = "" then none
  else
    let download_url := urljoin base_url link.href
    let t0 := pyStripStr link.text
    let title :=
      if t0 = "" || t0.length < 5 then
        match link.parentHeading with
        | some h => h
        | none => t0
      else t0
    let file_size :=
      match extract_file_size link.text with
      | some s => some s
      | none =>
        match link.ancestorTexts.head? with
        | some parentText => extract_file_size parentText
        | none => none
    some { title := title
           download_url := download_url
           file_size := file_size
           date_posted := extract_date link
           category := extract_category link
           file_type := if isInfixStr ".pdf" (String.mk (pyLower link.href.data))
                        then "PDF" else "Unknown" }

/-! ## Record extractor, section entry point
(`extract_publication_from_section`, scraper.py lines 183-221)

A section element is abstracted to the text of its first heading descendant
(if any, stripped), the hrefs of its descendant anchors in document order,
and its full text. -/

structure PageSection where
  heading : Option String
  anchorHrefs : List String
  text : String
deriving DecidableEq, Repr

/-- The filter of `section.find('a', href=re.compile(r'\.(pdf|doc|docx)', re.I))`:
a case-insensitive search for `.pdf` or `.doc` (every `.docx` match contains a
`.doc` match). -/
def isDocHref (href : String) : Bool :=
  isInfixStr ".pdf" (String.mk (pyLower href.data)) ||
  isInfixStr ".doc" (String.mk (pyLower href.data))

/-- `extract_publication_from_section` (scraper.py lines 183-221). -/
def extract_publication_from_section (sec : PageSection) : Option Publication :=
  let title := match sec.heading with | some h => h | none => ""
  let (download_url, file_type) :=
    match sec.anchorHrefs.find? isDocHref with
    | some href =>
      (urljoin base_url href,
       if isInfixStr ".pdf" (String.mk (pyLower href.data)) then "PDF"
       else if isInfixStr ".doc" (String.mk (pyLower href.data)) then "DOC"
       else "Unknown")
    | none => ("", "Unknown")
  if title ≠ "" ∧ download_url ≠ "" then
    some { title := title
           download_url := download_url
           file_size := extract_file_size sec.text
           date_posted := extract_date_from_text sec.text
           category := extract_category_from_text sec.text
           file_type := file_type }
  else none

/-! ## Known-record fallback (`alternative_parsing`, scraper.py lines 223-255) -/

/-- The hardcoded fallback records of `alternative_parsing`. -/
def known_publications : List Publication :=
  [{ title := "Rapport sur l\x27État actionnaire 2023 - 2024"
     date_posted := some "26/06/2025"
     file_size := some "6.92 Mo"
     category := "Rapport d\x27activités"
     file_type := "PDF"
     download_url := base_url ++ "/path/to/rapport-etat-actionnaire-2023-2024.pdf" },
   { title := "Charte de gouvernance pour les EEP."
     date_posted := some "22/05/2025"
     file_size := some "1755 ko"
     category := "Autres rapports"
     file_type := "PDF"
     download_url := base_url ++ "/path/to/charte-gouvernance-eep.pdf" }]

/-- `alternative_parsing` (scraper.py lines 223-255): emit each known record
whose literal title occurs in the page's full text. -/
def alternative_parsing (pageText : String) : List Publication :=
  known_publications.filter (fun pub => isInfixStr pub.title pageText)

/-! ## Deduplication tracker (`_is_unique_publication`, scraper.py lines 80-111) -/

/-- `_is_unique_publication` (scraper.py lines 80-111), for a non-`None`
candidate: reject on empty URL, then empty title, then seen URL, then seen
normalized title. -/
def _is_unique_publication (pub : Publication) (seen_urls seen_titles : List String) : Bool :=
  if pub.download_url = "" then false
  else if pub.title = "" then false
  else if pub.download_url ∈ seen_urls then false
  else if _normalize_title pub.title ∈ seen_titles then false
  else true

/-- The parser's accumulator: the publication list built so far plus the two
seen-sets (`seen_urls`, `seen_titles`), modelled as lists. -/
structure DedupState where
  pubs : List Publication
  seen_urls : List String
  seen_titles : List String
deriving DecidableEq, Repr

/-- The empty accumulator at the start of `parse_publications`. -/
def initState : DedupState := ⟨[], [], []⟩

/-- One iteration of the shared filtering idiom: a `None` candidate is
dropped; an accepted candidate is appended and both its URL and its
normalized title are recorded. -/
def dedupStep (s : DedupState) (cand : Option Publication) : DedupState :=
  match cand with
  | none => s
  | some pub =>
    if _is_unique_publication pub s.seen_urls s.seen_titles then
      ⟨s.pubs ++ [pub], pub.download_url :: s.seen_urls,
       _normalize_title pub.title :: s.seen_titles⟩
    else s

/-- Fold the filtering idiom over a candidate list. -/
def dedupAll (cands : List (Option Publication)) (s : DedupState) : DedupState :=
  cands.foldl dedupStep s

/-! ## Page parser (`parse_publications`, scraper.py lines 36-78) -/

/-- A fetched page, abstracted to the data `parse_publications` reads from
the DOM: the elements returned by the class-based `find_all` for sections,
every anchor of the document (the PDF filter is applied in the parser), and
the page's full text. -/
structure Page where
  sections : List PageSection
  anchors : List Link
  pageText : String
deriving DecidableEq, Repr

/-- The tier-1 candidates: `extract_publication_from_section` over all
matched sections. -/
def sectionCandidates (page : Page) : List (Option Publication) :=
  page.sections.map extract_publication_from_section

/-- The filter of `soup.find_all('a', href=re.compile(r'\.pdf', re.I))`: the
anchors whose href contains `.pdf` case-insensitively. -/
def pdfLinks (page : Page) : List Link :=
  page.anchors.filter (fun l => isInfixStr ".pdf" (String.mk (pyLower l.href.data)))

/-- The tier-2 candidates: `extract_publication_info` over the PDF links. -/
def pdfLinkCandidates (page : Page) : List (Option Publication) :=
  (pdfLinks page).map extract_publication_info

/-- `parse_publications` (scraper.py lines 36-78): when the class-based
section search finds no element, process the PDF links instead; when the
accumulated list is still empty afterwards, filter the `alternative_parsing`
records through the same tracker. -/
def parse_publications (page : Page) : List Publication :=
  let s1 :=
    if page.sections.isEmpty then dedupAll (pdfLinkCandidates page) initState
    else dedupAll (sectionCandidates page) initState
  if s1.pubs.isEmpty then
    (dedupAll ((alternative_parsing page.pageText).map some) s1).pubs
  else s1.pubs

/-! ## Analyzer (`analyze_publications`, scraper.py lines 324-389) -/

/-- Fueled computation of the distinct keys of a list in first-occurrence
order; the fuel is only a structural recursion device. -/
def counterKeysF {α : Type} [DecidableEq α] : Nat → List α → List α
  | _, [] => []
  | 0, _ => []
  | fuel + 1, a :: r => a :: counterKeysF fuel (r.filter (fun b => b ≠ a))

/-- The distinct keys of a list in first-occurrence order, as
`dict(Counter(...))` iterates them. -/
def counterKeys {α : Type} [DecidableEq α] (l : List α) : List α :=
  counterKeysF l.length l

/-- Model of `dict(Counter(l))`: keys in first-occurrence order with their
multiplicities. -/
def counter {α : Type} [DecidableEq α] (l : List α) : List (α × Nat) :=
  counterKeys l |>.map (fun k => (k, l.count k))

/-- Python `str.split(sep)` for a one-character separator (keeps empty
pieces). -/
def splitOnChar (sep : Char) : List Char → List (List Char)
  | [] => [[]]
  | c :: r =>
    if c = sep then [] :: splitOnChar sep r
    else
      match splitOnChar sep r with
      | [] => [[c]]
      | w :: ws => (c :: w) :: ws

/-- Numeric value of a digit string. -/
def natOfDigits : List Char → Nat :=
  List.foldl (fun n c => 10 * n + (c.toNat - 48)) 0

/-- Model of Python `int(str)`: optional surrounding whitespace, optional
sign, then a non-empty digit run.  (Python additionally accepts underscore
digit separators, which cannot occur in this pipeline's inputs.) -/
def pyInt (l : List Char) : Option Int :=
  match pyStrip l with
  | '-' :: ds =>
    if ds ≠ [] ∧ ds.all Char.isDigit then some (-(natOfDigits ds : Int)) else none
  | '+' :: ds =>
    if ds ≠ [] ∧ ds.all Char.isDigit then some (natOfDigits ds : Int) else none
  | ds =>
    if ds ≠ [] ∧ ds.all Char.isDigit then some (natOfDigits ds : Int) else none

/-- The year harvested from one record (scraper.py lines 349-357): for a set
date containing `/`, `int` of the last `/`-separated component; collection
failures (`int` raising) are skipped by the `except: continue`. -/
def yearOf (pub : Publication) : Option Int :=
  match pub.date_posted with
  | none => none
  | some ds =>
    if ds.data.contains '/' then pyInt ((splitOnChar '/' ds.data).getLastD [])
    else none

/-- Match `(\d+(?:\.\d+)?)` anchored at the start of `l` (greedy; nothing
follows the group, so the maximal runs are exactly what Python matches). -/
def numberHere (l : List Char) : Option (List Char) :=
  let ds := l.takeWhile Char.isDigit
  if ds.isEmpty then none
  else
    match l.drop ds.length with
    | '.' :: r2 =>
      let fs := r2.takeWhile Char.isDigit
      if fs.isEmpty then some ds else some (ds ++ '.' :: fs)
    | _ => some ds

/-- `re.search(r'(\d+(?:\.\d+)?)', ·)`. -/
def numberSearch : List Char → Option (List Char)
  | [] => none
  | c :: rest => (numberHere (c :: rest)).orElse (fun _ => numberSearch rest)

/-- Value of a matched number group, as an exact rational.  This idealizes
Python `float(...)`, which rounds to binary; on the claims' inputs every
value and every intermediate result is exactly representable, so the two
agree there. -/
def ratOfNumber (l : List Char) : ℚ :=
  let intPart := l.takeWhile Char.isDigit
  match l.drop intPart.length with
  | '.' :: fs => (natOfDigits intPart : ℚ) + (natOfDigits fs : ℚ) / (10 ^ fs.length)
  | _ => (natOfDigits intPart : ℚ)

/-- The megabyte value contributed by one size string (scraper.py lines
375-384): strings containing `'Mo'` or `'MB'` (case-sensitively) contribute
their first number; otherwise strings containing `'ko'` or `'KB'` contribute
it divided by 1024; every other string contributes nothing.  A missing
number raises inside the branch and is skipped by the `except: continue`,
i.e. contributes nothing. -/
def size_to_mb (s : String) : Option ℚ :=
  if isInfixStr "Mo" s || isInfixStr "MB" s then
    (numberSearch s.data).map ratOfNumber
  else if isInfixStr "ko" s || isInfixStr "KB" s then
    (numberSearch s.data).map (fun n => ratOfNumber n / 1024)
  else none

/-- The list `sizes` of the source (scraper.py lines 371-384): an unset or
empty `file_size` is skipped by the `if size_str:` truthiness test. -/
def sizesOf (pubs : List Publication) : List ℚ :=
  pubs.filterMap (fun p =>
    match p.file_size with
    | some s => if s ≠ "" then size_to_mb s else none
    | none => none)

/-- The latest-publication loop (scraper.py lines 364-368): scan the list in
order; `pub.get('date_posted', '')` yields `None` for a record whose date is
unset (the key is present), and `str(latest_year) in None` raises
`TypeError`; otherwise the first record whose date string contains the year
is selected. -/
def find_latest (yearStr : String) : List Publication → Except String (Option Publication)
  | [] => .ok none
  | p :: rest =>
    match p.date_posted with
    | none => .error "TypeError"
    | some ds => if isInfixStr yearStr ds then .ok (some p) else find_latest yearStr rest

/-- The analysis dict (scraper.py lines 329-337).  `isError` models the early
`{"error": "No publications found"}` return for an empty input. -/
structure AnalysisReport where
  isError : Bool
  total_publications : Nat
  categories : List (String × Nat)
  file_types : List (String × Nat)
  publications_by_year : List (Int × Nat)
  average_file_size : Option ℚ
  latest_publication : Option Publication
  publications_list : List Publication
deriving DecidableEq, Repr

/-- The report returned for an empty input (`{"error": ...}`). -/
def noPublicationsReport : AnalysisReport :=
  ⟨true, 0, [], [], [], none, none, []⟩

/-- `analyze_publications` (scraper.py lines 324-389).  The result is
`Except` because the latest-publication loop can raise an uncaught
`TypeError` (see `find_latest`); the `average_file_size` field holds the
numeric average in MB (the source stores it formatted as `f"{avg:.2f} MB"`,
pure presentation). -/
def analyze_publications (pubs : List Publication) : Except String AnalysisReport :=
  if pubs.isEmpty then .ok noPublicationsReport
  else
    let cats := counter (pubs.map (fun p => p.category))
    let fts := counter (pubs.map (fun p => p.file_type))
    let years := pubs.filterMap yearOf
    let sizes := sizesOf pubs
    let avg := if sizes.isEmpty then none
               else some ((sizes.foldl (· + ·) 0) / (sizes.length : ℚ))
    match years with
    | [] => .ok ⟨false, pubs.length, cats, fts, [], avg, none, pubs⟩
    | y :: ys =>
      let latest_year := ys.foldl max y
      match find_latest (toString latest_year) pubs with
      | .error e => .error e
      | .ok latest =>
        .ok ⟨false, pubs.length, cats, fts, counter years, avg, latest, pubs⟩

/-- The `average_file_size` of a non-raising analysis. -/
def analysisAverage (r : Except String AnalysisReport) : Option ℚ :=
  match r with
  | .ok rep => rep.average_file_size
  | .error _ => none

/-- The `latest_publication` of a non-raising analysis. -/
def analysisLatest (r : Except String AnalysisReport) : Option Publication :=
  match r with
  | .ok rep => rep.latest_publication
  | .error _ => none

/-! ## Pipeline orchestrator (`run_full_scrape`, scraper.py lines 497-551) -/

/-- A fetched document: the raw response text (used only for the `if not
html_content` truthiness test) together with its parsed DOM abstraction. -/
structure Html where
  raw : String
  dom : Page
deriving DecidableEq, Repr

/-- The outcome of the single `session.get`: either a raised
`requests.RequestException` (network error or timeout) or a response with a
status code and a body. -/
inductive FetchOutcome where
  | exn : FetchOutcome
  | response (status : Nat) (body : Html) : FetchOutcome

/-- `fetch_page_html` (scraper.py lines 26-34): `raise_for_status` raises for
4xx/5xx status codes; the exception handler turns every raise into `None`. -/
def fetch_page_html (outcome : FetchOutcome) : Option Html :=
  match outcome with
  | .exn => none
  | .response status body =>
    if 400 ≤ status ∧ status < 600 then none else some body

/-- The snapshot `save_results` serializes (scraper.py lines 391-428):
publications, analysis, and `total_unique_publications = len(publications)`
(`scraped_at`/`source_url` metadata carry no logic and are omitted). -/
structure PipelineSnapshot where
  publications : List Publication
  analysis : AnalysisReport
  total_unique_publications : Nat
deriving DecidableEq, Repr

/-- The observable outcome of one `run_full_scrape` call: the value returned
to the caller (`none` models the `(None, None)` failure return), the
snapshot persisted on disk after the run, and whether an uncaught exception
escaped. -/
structure RunResult where
  returned : Option (List Publication × AnalysisReport)
  stored : Option PipelineSnapshot
  crashed : Bool
deriving DecidableEq, Repr

/-- `run_full_scrape` (scraper.py lines 497-551) over a fetch outcome and the
previously persisted snapshot.  The existing-data read and the count
comparison (lines 504-532) only produce log output; `save_results` is called
unconditionally after a successful parse+analyze and replaces the stored
snapshot wholesale. -/
def run_full_scrape (outcome : FetchOutcome) (prior : Option PipelineSnapshot) : RunResult :=
  match fetch_page_html outcome with
  | none => ⟨none, prior, false⟩
  | some html =>
    if html.raw = "" then ⟨none, prior, false⟩
    else
      let pubs := parse_publications html.dom
      match analyze_publications pubs with
      | .error _ => ⟨none, prior, true⟩
      | .ok analysis =>
        ⟨some (pubs, analysis), some ⟨pubs, analysis, pubs.length⟩, false⟩

/-- The deduplication predicate of claim C1 on two publications: they differ
both in URL and in normalized title. -/
def DistinctKeys (a b : Publication) : Prop :=
  a.download_url ≠ b.download_url ∧ _normalize_title a.title ≠ _normalize_title b.title

/-- The invariant maintained by the parser's accumulator: every stored record
has a non-empty title and URL, the stored records are pairwise distinct on
both dedup keys, and both seen-sets cover the stored records. -/
def StateInv (s : DedupState) : Prop :=
  (∀ p ∈ s.pubs, p.title ≠ "" ∧ p.download_url ≠ "") ∧
  s.pubs.Pairwise DistinctKeys ∧
  (∀ p ∈ s.pubs, p.download_url ∈ s.seen_urls) ∧
  (∀ p ∈ s.pubs, _normalize_title p.title ∈ s.seen_titles)

/-! ## Tier views of the parser, used to state the fallback claims -/

/-- The accumulator after running the structured-section tier from scratch. -/
def tier_one_state (page : Page) : DedupState :=
  dedupAll (sectionCandidates page) initState

/-- The accumulator after running the raw-link tier from scratch. -/
def tier_two_state (page : Page) : DedupState :=
  dedupAll (pdfLinkCandidates page) initState

/-- The accumulator after the first phase of `parse_publications` (tier 1 if
any section was found, tier 2 otherwise). -/
def first_phase (page : Page) : DedupState :=
  if page.sections.isEmpty then tier_two_state page else tier_one_state page

/-! ## Claim-side models

These definitions transcribe claim wordings (not the source); each is
compared against the source-derived functions in the theorems below. -/

/-- Modelled from claim C5's wording: every size whose number parses
contributes; `ko`/`KB` sizes are divided by 1024 and all other units' numeric
values pass through unchanged; only unparsable sizes are excluded. -/
def claim_size_to_mb (s : String) : Option ℚ :=
  match numberSearch s.data with
  | none => none
  | some n =>
    if isInfixStr "ko" s || isInfixStr "KB" s then some (ratOfNumber n / 1024)
    else some (ratOfNumber n)

/-- The average file size predicted by claim C5's wording. -/
def claim_average (pubs : List Publication) : Option ℚ :=
  let sizes := pubs.filterMap (fun p => p.file_size.bind claim_size_to_mb)
  if sizes.isEmpty then none
  else some ((sizes.foldl (· + ·) 0) / (sizes.length : ℚ))

/-- The per-size conversion of the amended claim C5: `Mo`/`MB` sizes pass
their first number through, otherwise `ko`/`KB` sizes contribute it divided
by 1024, and every other size (other units, case variants, or no parsable
number) is excluded from numerator and denominator. -/
def amended_size_to_mb (s : String) : Option ℚ :=
  match numberSearch s.data with
  | none => none
  | some n =>
    if isInfixStr "Mo" s || isInfixStr "MB" s then some (ratOfNumber n)
    else if isInfixStr "ko" s || isInfixStr "KB" s then some (ratOfNumber n / 1024)
    else none

/-! ## Concrete inputs used by witnesses and counterexamples -/

/-- A section with no heading: its extraction yields no record. -/
def dudSection : PageSection := ⟨none, [], "section sans titre"⟩

/-- A well-formed PDF anchor. -/
def goodLink : Link := ⟨"/docs/rapport-annuel-2024.pdf", "Rapport annuel 2024", none, []⟩

/-- The record `extract_publication_info` builds from `goodLink`. -/
def pubLink : Publication :=
  ⟨"Rapport annuel 2024", "https://angspe.ma/docs/rapport-annuel-2024.pdf",
   none, none, "Non classé", "PDF"⟩

/-- A page whose only section yields no record while its only anchor is a
valid PDF link, and whose text contains no known title. -/
def pageC2 : Page := ⟨[dudSection], [goodLink], ""⟩

/-- A page with no sections and one valid PDF link. -/
def pageLinks : Page := ⟨[], [goodLink], ""⟩

/-- A non-empty document whose DOM yields no publication on any tier. -/
def emptyHtml : Html := ⟨"<html><body>rien</body></html>", ⟨[], [], "rien"⟩⟩

/-- An arbitrary previously persisted snapshot. -/
def priorSnapshot : PipelineSnapshot := ⟨known_publications, noPublicationsReport, 2⟩

/-- A publication sized `10 Mo`. -/
def pub10Mo : Publication := ⟨"Rapport A", "https://angspe.ma/a.pdf", some "10 Mo", none, "Non classé", "PDF"⟩

/-- A publication sized `512 ko`. -/
def pub512ko : Publication := ⟨"Rapport B", "https://angspe.ma/b.pdf", some "512 ko", none, "Non classé", "PDF"⟩

/-- A publication sized `10 Go`. -/
def pubGo : Publication := ⟨"Rapport C", "https://angspe.ma/c.pdf", some "10 Go", none, "Non classé", "PDF"⟩

/-- A publication with no date. -/
def pubNoDate : Publication := ⟨"Sans date", "https://angspe.ma/n.pdf", none, none, "Non classé", "PDF"⟩

/-- A publication dated `01/01/2024`. -/
def pub0101 : Publication := ⟨"Rapport 2024", "https://angspe.ma/d1.pdf", none, some "01/01/2024", "Non classé", "PDF"⟩

/-- A publication dated `15/06/2025`. -/
def pub1506 : Publication := ⟨"Rapport juin", "https://angspe.ma/d2.pdf", none, some "15/06/2025", "Non classé", "PDF"⟩

/-- A publication dated `20/06/2025`. -/
def pub2006 : Publication := ⟨"Rapport fin juin", "https://angspe.ma/d3.pdf", none, some "20/06/2025", "Non classé", "PDF"⟩

/-- No two adjacent spaces (the relation used with `List.Chain'`). -/
def noTwoSpaces (a b : Char) : Prop := ¬(a = ' ' ∧ b = ' ')

/-- The shape invariant of `normalizeList`'s output, used for the amended
idempotence claim: every character is fixed by lower-casing, none is a
stripped punctuation character, the only whitespace is the plain space,
no two spaces are adjacent, and the ends are not spaces. -/
def NormInv (l : List Char) : Prop :=
  (∀ c ∈ l, pyLowerChar c = c) ∧
  (∀ c ∈ l, c ∉ strippedPunctuation) ∧
  (∀ c ∈ l, pyIsSpace c = true → c = ' ') ∧
  List.Chain' noTwoSpaces l ∧
  (∀ c, l.head? = some c → c ≠ ' ') ∧
  (∀ c, l.getLast? = some c → c ≠ ' ')

/-! # Theorems -/

/-- C4: if the fetch errors, times out, or returns a non-success status, the
run aborts producing no snapshot: `run_full_scrape` writes nothing (the
stored snapshot is whatever was there before), performs no parsing or
analysis, and returns the failure value `(None, None)` to the caller. -/
theorem fetch_failure_aborts :
    (∀ prior : Option PipelineSnapshot,
       run_full_scrape .exn prior = ⟨none, prior, false⟩) ∧
    (∀ (status : Nat) (body : Html) (prior : Option PipelineSnapshot),
       400 ≤ status → status < 600 →
       run_full_scrape (.response status body) prior = ⟨none, prior, false⟩) := by
  refine ⟨fun prior => rfl, fun status body prior h1 h2 => ?_⟩
  simp only [run_full_scrape, fetch_page_html, if_pos (And.intro h1 h2)]

/-- Witness for C4 at a concrete `404` response. -/
theorem fetch_failure_aborts_witness :
    run_full_scrape (.response 404 emptyHtml) (some priorSnapshot) =
      ⟨none, some priorSnapshot, false⟩ :=
  fetch_failure_aborts.2 404 emptyHtml (some priorSnapshot) (by decide) (by decide)

/-- C3: a run in which the fetch succeeds (with a non-empty body, the only
kind the code treats as success) but zero publications are extracted still
completes — returning the empty list and the no-data report — and still
writes a fresh snapshot, whatever the previously persisted snapshot was:
there is no keep-last-good-data safeguard on an empty result. -/
theorem empty_result_still_writes (outcome : FetchOutcome) (html : Html)
    (prior : Option PipelineSnapshot)
    (hfetch : fetch_page_html outcome = some html)
    (hraw : html.raw ≠ "") (hparse : parse_publications html.dom = []) :
    run_full_scrape outcome prior =
      ⟨some ([], noPublicationsReport), some ⟨[], noPublicationsReport, 0⟩, false⟩ := by
  simp only [run_full_scrape, hfetch, if_neg hraw, hparse, analyze_publications,
    List.isEmpty_nil, if_true, List.length_nil]

/-- Witness for C3: a successful fetch of a page with no extractable
publication overwrites a non-trivial prior snapshot with the empty one. -/
theorem empty_result_still_writes_witness :
    run_full_scrape (.response 200 emptyHtml) (some priorSnapshot) =
      ⟨some ([], noPublicationsReport), some ⟨[], noPublicationsReport, 0⟩, false⟩ :=
  empty_result_still_writes (.response 200 emptyHtml) emptyHtml (some priorSnapshot)
    rfl (by decide) (by decide)

/-- C9: the claim's selection rule (first list-order record whose date string
contains the maximal parsed year) is what the code implements on lists it
survives — on `[pub0101, pub1506, pub2006]` the pick is `pub1506`, not the
day-wise latest `pub2006` — but the loop raises an uncaught `TypeError` as
soon as it scans a record with an unset `date_posted` before finding a
match, because `pub.get('date_posted', '')` returns `None` for a present
key; so on `[pubNoDate, pub1506]` nothing is selected at all and the
analyzer (hence the whole run) crashes. -/
theorem latest_publication_typeerror :
    analyze_publications [pubNoDate, pub1506] = .error "TypeError" ∧
    analysisLatest (analyze_publications [pub0101, pub1506, pub2006]) = some pub1506 :=
  ⟨rfl, rfl⟩

/-- Counterexample to C6 as stated: the normalizer is not idempotent, because
the substitution target `"rapport sur le"` still contains the substitution
source `"rapport sur l"`; `normalize("rapport sur l") = "rapport sur le"`
but a second application yields `"rapport sur lee"`. -/
theorem normalize_not_idempotent :
    _normalize_title (_normalize_title "rapport sur l") ≠ _normalize_title "rapport sur l" := by
  decide

/-- Counterexample to C7 as stated: the comma decimal `"1,5 Mo"` is not
reassembled with its fractional part — the dot-pattern already matches the
`"5 Mo"` inside it, so `extract_file_size "1,5 Mo"` is `"5 Mo"`, not
`"1,5 Mo"`. -/
theorem file_size_comma_counterexample :
    extract_file_size "1,5 Mo" = some "5 Mo" ∧ ("5 Mo" : String) ≠ "1,5 Mo" := by
  exact ⟨by decide, by decide⟩

/-- Counterexample to C5 as stated: on a single `"10 Go"` size the claim's
rule ("all other units' numeric values pass through unchanged") predicts an
average of 10 MB, but the code's analyzer has no branch for `Go` and reports
no average at all. -/
theorem average_size_counterexample :
    claim_average [pubGo] = some 10 ∧
    analysisAverage (analyze_publications [pubGo]) = none := by
  constructor
  · have h : claim_average [pubGo] = some ((0 + ((10 : ℕ) : ℚ)) / ((1 : ℕ) : ℚ)) := rfl
    rw [h]; norm_num
  · decide

theorem is_unique_facts (pub : Publication) (u t : List String)
    (h : _is_unique_publication pub u t = true) :
    pub.download_url ≠ "" ∧ pub.title ≠ "" ∧
    pub.download_url ∉ u ∧ _normalize_title pub.title ∉ t := by
  unfold _is_unique_publication at h
  split_ifs at h with h1 h2 h3 h4
  exact ⟨h1, h2, h3, h4⟩

theorem stateInv_init : StateInv initState := by
  refine ⟨?_, ?_, ?_, ?_⟩ <;> simp [initState, StateInv]

theorem stateInv_step (s : DedupState) (cand : Option Publication) (hs : StateInv s) :
    StateInv (dedupStep s cand) := by
  cases cand with
  | none => exact hs
  | some pub =>
    simp only [dedupStep]
    by_cases hu : _is_unique_publication pub s.seen_urls s.seen_titles = true
    · rw [if_pos hu]
      obtain ⟨hurl, htitle, hnu, hnt⟩ := is_unique_facts pub _ _ hu
      obtain ⟨h1, h2, h3, h4⟩ := hs
      refine ⟨?_, ?_, ?_, ?_⟩
      · intro p hp
        rcases List.mem_append.mp hp with hp | hp
        · exact h1 p hp
        · rw [List.mem_singleton.mp hp]
          exact ⟨htitle, hurl⟩
      · refine List.pairwise_append.mpr ⟨h2, List.pairwise_singleton _ _, ?_⟩
        intro a ha b hb
        rw [List.mem_singleton.mp hb]
        exact ⟨fun e => hnu (e ▸ h3 a ha), fun e => hnt (e ▸ h4 a ha)⟩
      · intro p hp
        rcases List.mem_append.mp hp with hp | hp
        · exact List.mem_cons_of_mem _ (h3 p hp)
        · rw [List.mem_singleton.mp hp]; exact List.mem_cons_self _ _
      · intro p hp
        rcases List.mem_append.mp hp with hp | hp
        · exact List.mem_cons_of_mem _ (h4 p hp)
        · rw [List.mem_singleton.mp hp]; exact List.mem_cons_self _ _
    · rw [if_neg hu]; exact hs

theorem stateInv_all (cands : List (Option Publication)) (s : DedupState) (hs : StateInv s) :
    StateInv (dedupAll cands s) := by
  induction cands generalizing s with
  | nil => exact hs
  | cons c rest ih => exact ih (dedupStep s c) (stateInv_step s c hs)

theorem parse_eq (page : Page) :
    parse_publications page =
      (if (first_phase page).pubs.isEmpty then
        (dedupAll ((alternative_parsing page.pageText).map some) (first_phase page)).pubs
       else (first_phase page).pubs) := rfl

/-- C1: for every page, within one run of `parse_publications` every returned
publication has a non-empty title and a non-empty download URL, and no two
returned publications share a `download_url` or a normalized title (a
candidate failing any check is rejected and never appended; first seen
wins). -/
theorem parse_publications_dedup_invariant (page : Page) :
    (∀ p ∈ parse_publications page, p.title ≠ "" ∧ p.download_url ≠ "") ∧
    (parse_publications page).Pairwise DistinctKeys := by
  have hfirst : StateInv (first_phase page) := by
    unfold first_phase
    split
    · exact stateInv_all _ _ stateInv_init
    · exact stateInv_all _ _ stateInv_init
  rw [parse_eq]
  split
  · have h := stateInv_all ((alternative_parsing page.pageText).map some) _ hfirst
    exact ⟨h.1, h.2.1⟩
  · exact ⟨hfirst.1, hfirst.2.1⟩

/-- Witness for C1 on a concrete page producing one record. -/
theorem parse_publications_dedup_invariant_witness : pubLink.title ≠ "" ∧ pubLink.download_url ≠ "" :=
  (parse_publications_dedup_invariant pageLinks).1 pubLink (by decide)

theorem extract_info_pdf (link : Link)
    (hpdf : isInfixStr ".pdf" (String.mk (pyLower link.href.data)) = true)
    (p : Publication) (hp : extract_publication_info link = some p) :
    p.file_type = "PDF" := by
  have hne : link.href ≠ "" := by
    intro h0
    rw [h0] at hpdf
    exact absurd hpdf (by decide)
  simp only [extract_publication_info, if_neg hne, Option.some.injEq] at hp
  subst hp
  exact if_pos hpdf

theorem mem_dedupAll (p : Publication) (cands : List (Option Publication)) (s : DedupState)
    (hp : p ∈ (dedupAll cands s).pubs) : p ∈ s.pubs ∨ some p ∈ cands := by
  induction cands generalizing s with
  | nil => exact Or.inl hp
  | cons c rest ih =>
    rcases ih (dedupStep s c) hp with h | h
    · cases c with
      | none => exact Or.inl h
      | some pub =>
        simp only [dedupStep] at h
        split at h
        · rcases List.mem_append.mp h with h | h
          · exact Or.inl h
          · rw [List.mem_singleton.mp h]
            exact Or.inr (List.mem_cons_self _ _)
        · exact Or.inl h
    · exact Or.inr (List.mem_cons_of_mem _ h)

/-- C10: every publication produced by the raw-link (tier 2) path has
`file_type = "PDF"`: the candidate anchors are pre-filtered by a
case-insensitive `.pdf` match on the href, which is exactly the condition
under which `extract_publication_info` assigns `"PDF"`, so `"Unknown"` and
`"DOC"` are unreachable on this path. -/
theorem raw_link_tier_file_type_pdf (page : Page) (p : Publication)
    (hp : p ∈ (tier_two_state page).pubs) : p.file_type = "PDF" := by
  rcases mem_dedupAll p _ _ hp with h | h
  · exact absurd h (by simp [initState])
  · rcases List.mem_map.mp h with ⟨link, hlink, hext⟩
    exact extract_info_pdf link (List.mem_filter.mp hlink).2 p hext

/-- Witness for C10 at a concrete PDF link. -/
theorem raw_link_tier_file_type_pdf_witness : pubLink.file_type = "PDF" :=
  raw_link_tier_file_type_pdf pageLinks pubLink (by decide)

theorem isEmpty_false_of_ne {α : Type} {l : List α} (h : l ≠ []) : l.isEmpty = false := by
  cases l with
  | nil => exact absurd rfl h
  | cons a r => rfl

/-- Counterexample to C2 as stated: on `pageC2` the structured-section tier
is attempted (a section was found) and yields zero records, so by the claim
the raw-link tier should run — and it would produce a record — yet
`parse_publications` returns the empty list: the raw-link tier is gated on
"zero sections found", not on "zero records from tier 1". -/
theorem tier_fallback_counterexample :
    (tier_one_state pageC2).pubs = [] ∧ pageC2.sections ≠ [] ∧
    (tier_two_state pageC2).pubs ≠ [] ∧ parse_publications pageC2 = [] :=
  ⟨by decide, by decide, by decide, by decide⟩

/-- C2 (amended): the three tiers run in strict order, but the raw-link tier
runs exactly when the section search found zero elements — when at least one
section is found, the anchors have no effect on the output even if the
section tier yields zero records — while the known-record tier runs exactly
when the first two tiers together yielded zero records (otherwise the page
text has no effect on the output). -/
theorem tier_fallback_amended (page : Page) :
    (page.sections = [] →
       parse_publications page =
         (if (tier_two_state page).pubs.isEmpty then
            (dedupAll ((alternative_parsing page.pageText).map some) (tier_two_state page)).pubs
          else (tier_two_state page).pubs)) ∧
    (page.sections ≠ [] → ∀ anchors' : List Link,
       parse_publications { page with anchors := anchors' } = parse_publications page) ∧
    ((first_phase page).pubs ≠ [] → ∀ t' : String,
       parse_publications { page with pageText := t' } = parse_publications page) ∧
    ((first_phase page).pubs = [] →
       parse_publications page =
         (dedupAll ((alternative_parsing page.pageText).map some) (first_phase page)).pubs) := by
  refine ⟨?_, ?_, ?_, ?_⟩
  · intro h
    have h2 : first_phase page = tier_two_state page := by
      simp [first_phase, h]
    rw [parse_eq, h2]
  · intro hs anchors'
    have hc : page.sections.isEmpty = false := isEmpty_false_of_ne hs
    rw [parse_eq, parse_eq]
    simp only [first_phase, hc]
    rfl
  · intro hne t'
    have hc : (first_phase page).pubs.isEmpty = false := by
      cases he : (first_phase page).pubs with
      | nil => exact absurd he hne
      | cons a r => rfl
    have hfp : first_phase ({ page with pageText := t' }) = first_phase page := rfl
    rw [parse_eq, parse_eq, hfp, hc]
    rfl
  · intro he
    rw [parse_eq, he]
    rfl

/-- Witness for C2 (amended) at a concrete page with a non-empty section
list: dropping all anchors does not change the output. -/
theorem tier_fallback_amended_witness :
    parse_publications { pageC2 with anchors := [] } = parse_publications pageC2 :=
  (tier_fallback_amended pageC2).2.1 (by decide) []

theorem size_to_mb_eq_amended (p : Publication) :
    (match p.file_size with
     | some s => if s ≠ "" then size_to_mb s else none
     | none => none) = p.file_size.bind amended_size_to_mb := by
  cases hf : p.file_size with
  | none => rfl
  | some s =>
    simp only [Option.bind_some]
    by_cases hs : s = ""
    · subst hs
      simp [amended_size_to_mb, numberSearch]
    · rw [if_pos hs]
      rcases hn : numberSearch s.data with _ | n <;>
        by_cases h1 : (isInfixStr "Mo" s = true) ∨ (isInfixStr "MB" s = true) <;>
        by_cases h2 : (isInfixStr "ko" s = true) ∨ (isInfixStr "KB" s = true) <;>
        simp [size_to_mb, amended_size_to_mb, hn, h1, h2]

theorem sizesOf_eq_amended (pubs : List Publication) :
    sizesOf pubs = pubs.filterMap (fun p => p.file_size.bind amended_size_to_mb) := by
  unfold sizesOf
  exact List.filterMap_congr (fun p _ => size_to_mb_eq_amended p)

theorem analyze_average (pubs : List Publication) (rep : AnalysisReport)
    (h : analyze_publications pubs = .ok rep) :
    rep.average_file_size =
      (if (sizesOf pubs).isEmpty then none
       else some (((sizesOf pubs).foldl (· + ·) 0) / ((sizesOf pubs).length : ℚ))) := by
  unfold analyze_publications at h
  by_cases hp : pubs.isEmpty
  · rw [if_pos hp] at h
    obtain rfl : noPublicationsReport = rep := Except.ok.inj h
    have hnil : pubs = [] := List.isEmpty_iff.mp hp
    subst hnil
    rfl
  · rw [if_neg hp] at h
    simp only [] at h
    rcases hy : pubs.filterMap yearOf with _ | ⟨y, ys⟩ <;> rw [hy] at h <;>
      simp only [] at h
    · obtain rfl := Except.ok.inj h
      rfl
    · rcases hl : find_latest (toString (ys.foldl max y)) pubs with e | latest <;>
        rw [hl] at h
      · cases h
      · obtain rfl := Except.ok.inj h
        rfl

/-- C5 (amended): for every publication list, the analyzer's average file
size in megabytes counts exactly the sizes whose string contains `Mo`/`MB`
(first number passed through) or, failing that, `ko`/`KB` (first number
divided by 1024); sizes with any other unit (e.g. `Go`, or case variants)
and sizes without a parsable number are excluded from both numerator and
denominator; for `"10 Mo"` and `"512 ko"` the average is
`(10 + 512/1024)/2 = 5.25` MB. -/
theorem average_size_amended :
    (∀ (pubs : List Publication) (rep : AnalysisReport),
       analyze_publications pubs = .ok rep →
       rep.average_file_size =
         (let sizes := pubs.filterMap (fun p => p.file_size.bind amended_size_to_mb)
          if sizes.isEmpty then none
          else some ((sizes.foldl (· + ·) 0) / (sizes.length : ℚ)))) ∧
    analysisAverage (analyze_publications [pub10Mo, pub512ko]) = some (21 / 4) := by
  constructor
  · intro pubs rep h
    rw [analyze_average pubs rep h, sizesOf_eq_amended]
  · have h : analysisAverage (analyze_publications [pub10Mo, pub512ko]) =
        some (((0 + ((10 : ℕ) : ℚ)) + ((512 : ℕ) : ℚ) / 1024) / ((2 : ℕ) : ℚ)) := rfl
    rw [h]
    norm_num

/-- Witness for C5 (amended), instantiated at the empty list whose report is
concrete. -/
theorem average_size_amended_witness :
    noPublicationsReport.average_file_size =
      (let sizes := ([] : List Publication).filterMap (fun p => p.file_size.bind amended_size_to_mb)
       if sizes.isEmpty then none
       else some ((sizes.foldl (· + ·) 0) / (sizes.length : ℚ))) :=
  average_size_amended.1 [] noPublicationsReport rfl

theorem exactDigits_inv {k : Nat} {l ds r : List Char}
    (h : exactDigits k l = some (ds, r)) :
    ds.length = k ∧ ds.all Char.isDigit = true := by
  unfold exactDigits at h
  simp only [] at h
  split at h
  · rename_i hc
    obtain ⟨h1, h2⟩ := Prod.mk.inj (Option.some.inj h)
    subst h1
    simp only [Bool.and_eq_true, decide_eq_true_eq] at hc
    exact ⟨hc.1, hc.2⟩
  · cases h

theorem dateHereWith_inv {a b : Nat} {sep : Char} {l d m y : List Char}
    (h : dateHereWith a b sep l = some (d, m, y)) :
    d.length = a ∧ d.all Char.isDigit = true ∧ m.length = b ∧ m.all Char.isDigit = true ∧
    y.length = 4 ∧ y.all Char.isDigit = true := by
  unfold dateHereWith at h
  split at h
  · cases h
  · rename_i d0 r1 hd0
    split at h
    · cases h
    · split at h
      · split at h
        · cases h
        · rename_i m0 r3 hm0
          split at h
          · cases h
          · split at h
            · split at h
              · cases h
              · rename_i y0 r5 hy0
                obtain ⟨h1, hrest⟩ := Prod.mk.inj (Option.some.inj h)
                obtain ⟨h2, h3⟩ := Prod.mk.inj hrest
                subst h1; subst h2; subst h3
                obtain ⟨e1, e2⟩ := exactDigits_inv hd0
                obtain ⟨e3, e4⟩ := exactDigits_inv hm0
                obtain ⟨e5, e6⟩ := exactDigits_inv hy0
                exact ⟨e1, e2, e3, e4, e5, e6⟩
            · cases h
      · cases h

theorem dateHere_inv {sep : Char} {l d m y : List Char}
    (h : dateHere sep l = some (d, m, y)) :
    (d.length = 1 ∨ d.length = 2) ∧ d.all Char.isDigit = true ∧
    (m.length = 1 ∨ m.length = 2) ∧ m.all Char.isDigit = true ∧
    y.length = 4 ∧ y.all Char.isDigit = true := by
  unfold dateHere at h
  split at h
  · rename_i h22
    obtain ⟨e1, e2, e3, e4, e5, e6⟩ := dateHereWith_inv (h ▸ h22)
    exact ⟨Or.inr e1, e2, Or.inr e3, e4, e5, e6⟩
  · split at h
    · rename_i h21
      obtain ⟨e1, e2, e3, e4, e5, e6⟩ := dateHereWith_inv (h ▸ h21)
      exact ⟨Or.inr e1, e2, Or.inl e3, e4, e5, e6⟩
    · split at h
      · rename_i h12
        obtain ⟨e1, e2, e3, e4, e5, e6⟩ := dateHereWith_inv (h ▸ h12)
        exact ⟨Or.inl e1, e2, Or.inr e3, e4, e5, e6⟩
      · obtain ⟨e1, e2, e3, e4, e5, e6⟩ := dateHereWith_inv h
        exact ⟨Or.inl e1, e2, Or.inl e3, e4, e5, e6⟩

theorem dateSearch_inv {sep : Char} {l d m y : List Char}
    (h : dateSearch sep l = some (d, m, y)) :
    (d.length = 1 ∨ d.length = 2) ∧ d.all Char.isDigit = true ∧
    (m.length = 1 ∨ m.length = 2) ∧ m.all Char.isDigit = true ∧
    y.length = 4 ∧ y.all Char.isDigit = true := by
  induction l with
  | nil => cases h
  | cons c rest ih =>
    rw [show dateSearch sep (c :: rest) =
        (dateHere sep (c :: rest)).orElse (fun _ => dateSearch sep rest) from rfl] at h
    cases hh : dateHere sep (c :: rest) with
    | some r =>
      rw [hh] at h
      obtain rfl := Option.some.inj h
      exact dateHere_inv hh
    | none =>
      rw [hh] at h
      exact ih h

theorem posteSearch_inv {l d m y : List Char}
    (h : posteSearch l = some (d, m, y)) :
    (d.length = 1 ∨ d.length = 2) ∧ d.all Char.isDigit = true ∧
    (m.length = 1 ∨ m.length = 2) ∧ m.all Char.isDigit = true ∧
    y.length = 4 ∧ y.all Char.isDigit = true := by
  induction l with
  | nil => cases h
  | cons c rest ih =>
    rw [show posteSearch (c :: rest) =
        (posteHere (c :: rest)).orElse (fun _ => posteSearch rest) from rfl] at h
    cases hh : posteHere (c :: rest) with
    | some r =>
      rw [hh] at h
      obtain rfl := Option.some.inj h
      unfold posteHere at hh
      split at hh
      · exact dateHere_inv hh
      · cases hh
    | none =>
      rw [hh] at h
      exact ih h

/-- C8: `extract_date_from_text` tries, in order, the patterns `DD/MM/YYYY`,
`DD-MM-YYYY` and `Posté le DD/MM/YYYY`; the first matching pattern wins, the
output is always rendered with slash separators from the three digit groups
(1-2, 1-2 and 4 digits — hyphens are never preserved), and no match yields
`None`; in particular `"Posté le 26/06/2025"` and `"26-06-2025"` both give
`"26/06/2025"`. -/
theorem date_extraction_ok :
    extract_date_from_text "Posté le 26/06/2025" = some "26/06/2025" ∧
    extract_date_from_text "26-06-2025" = some "26/06/2025" ∧
    extract_date_from_text "sans date" = none ∧
    ∀ t s, extract_date_from_text t = some s →
      ∃ d m y : List Char, s = String.mk (d ++ '/' :: m ++ '/' :: y) ∧
        (d.length = 1 ∨ d.length = 2) ∧ d.all Char.isDigit = true ∧
        (m.length = 1 ∨ m.length = 2) ∧ m.all Char.isDigit = true ∧
        y.length = 4 ∧ y.all Char.isDigit = true := by
  refine ⟨by decide, by decide, by decide, ?_⟩
  intro t s h
  unfold extract_date_from_text at h
  split at h
  · cases h
  · split at h
    · rename_i r hr
      obtain rfl := Option.some.inj h
      exact ⟨r.1, r.2.1, r.2.2, rfl, dateSearch_inv hr⟩
    · split at h
      · rename_i r hr
        obtain rfl := Option.some.inj h
        exact ⟨r.1, r.2.1, r.2.2, rfl, dateSearch_inv hr⟩
      · split at h
        · rename_i r hr
          obtain rfl := Option.some.inj h
          exact ⟨r.1, r.2.1, r.2.2, rfl, posteSearch_inv hr⟩
        · cases h

/-- Witness for C8's shape property at the hyphenated example. -/
theorem date_extraction_ok_witness :
    ∃ d m y : List Char, ("26/06/2025" : String) = String.mk (d ++ '/' :: m ++ '/' :: y) ∧
      (d.length = 1 ∨ d.length = 2) ∧ d.all Char.isDigit = true ∧
      (m.length = 1 ∨ m.length = 2) ∧ m.all Char.isDigit = true ∧
      y.length = 4 ∧ y.all Char.isDigit = true :=
  date_extraction_ok.2.2.2 "26-06-2025" "26/06/2025" date_extraction_ok.2.1

theorem isUnitPair_dot (b : Char) : isUnitPair '.' b = false := by
  simp [isUnitPair, sizeUnits, pyLowerChar, asciiUpperLower, Prod.ext_iff]

theorem isUnitPair_comma (b : Char) : isUnitPair ',' b = false := by
  simp [isUnitPair, sizeUnits, pyLowerChar, asciiUpperLower, Prod.ext_iff]

theorem unitHead_dot (r : List Char) : unitHead ('.' :: r) = none := by
  have hd : ('.' :: r).dropWhile pyIsSpace = '.' :: r := by
    rw [List.dropWhile_cons_of_neg]
    decide
  unfold unitHead
  rw [hd]
  cases r with
  | nil => rfl
  | cons b rest =>
    simp only []
    rw [isUnitPair_dot]
    rfl

theorem unitHead_comma (r : List Char) : unitHead (',' :: r) = none := by
  have hd : (',' :: r).dropWhile pyIsSpace = ',' :: r := by
    rw [List.dropWhile_cons_of_neg]
    decide
  unfold unitHead
  rw [hd]
  cases r with
  | nil => rfl
  | cons b rest =>
    simp only []
    rw [isUnitPair_comma]
    rfl

theorem sizeSearch_of_drop (l : List Char) :
    ∀ n : Nat, (sizeHere '.' (l.drop n)).isSome = true → (sizeSearch '.' l).isSome = true := by
  induction l with
  | nil =>
    intro n h
    rw [List.drop_nil] at h
    exact absurd h (by decide)
  | cons c rest ih =>
    intro n h
    have step : sizeSearch '.' (c :: rest) =
        (sizeHere '.' (c :: rest)).orElse (fun _ => sizeSearch '.' rest) := rfl
    cases n with
    | zero =>
      rw [List.drop_zero] at h
      rw [step]
      cases hh : sizeHere '.' (c :: rest) with
      | some r => rfl
      | none => rw [hh] at h; cases h
    | succ n =>
      have h' := ih n h
      rw [step]
      cases hh : sizeHere '.' (c :: rest) with
      | some r => rfl
      | none => exact h'

theorem comma_here (l : List Char) (h : (sizeHere ',' l).isSome = true) :
    ∃ n, (sizeHere '.' (l.drop n)).isSome = true := by
  unfold sizeHere at h
  simp only [] at h
  by_cases hds : (l.takeWhile Char.isDigit).isEmpty = true
  · rw [if_pos hds] at h; cases h
  rw [if_neg hds] at h
  cases hrest : l.drop (l.takeWhile Char.isDigit).length with
  | nil =>
    rw [hrest] at h
    simp [unitHead] at h
  | cons c r2 =>
    rw [hrest] at h
    simp only [] at h
    by_cases hc : c = ','
    · subst hc
      rw [if_pos rfl] at h
      by_cases hfs : (r2.takeWhile Char.isDigit).isEmpty = true
      · rw [if_pos hfs, unitHead_comma] at h
        cases h
      · rw [if_neg hfs] at h
        refine ⟨(l.takeWhile Char.isDigit).length + 1, ?_⟩
        have hdrop : l.drop ((l.takeWhile Char.isDigit).length + 1) = r2 := by
          have h1 : l.drop ((l.takeWhile Char.isDigit).length + 1) =
              (l.drop (l.takeWhile Char.isDigit).length).drop 1 := by
            rw [List.drop_drop, Nat.add_comm]
          rw [h1, hrest, List.drop_one, List.tail_cons]
        rw [hdrop]
        unfold sizeHere
        simp only []
        rw [if_neg hfs]
        cases hr2 : r2.drop (r2.takeWhile Char.isDigit).length with
        | nil =>
          rw [hr2] at h
          simp [unitHead] at h
        | cons x xs =>
          rw [hr2] at h
          simp only [] at h ⊢
          by_cases hx : x = '.'
          · subst hx
            rw [unitHead_dot] at h
            cases h
          · rw [if_neg hx]
            cases hu : unitHead (x :: xs) with
            | some u => simp [hu]
            | none => rw [hu] at h; cases h
    · rw [if_neg hc] at h
      refine ⟨0, ?_⟩
      rw [List.drop_zero]
      unfold sizeHere
      simp only []
      rw [if_neg hds, hrest]
      simp only []
      by_cases hcdot : c = '.'
      · subst hcdot
        rw [unitHead_dot] at h
        cases h
      · rw [if_neg hcdot]
        exact h

theorem sizeSearch_comma_dot (l : List Char) (h : (sizeSearch ',' l).isSome = true) :
    (sizeSearch '.' l).isSome = true := by
  induction l with
  | nil => cases h
  | cons c rest ih =>
    have stepc : sizeSearch ',' (c :: rest) =
        (sizeHere ',' (c :: rest)).orElse (fun _ => sizeSearch ',' rest) := rfl
    have stepd : sizeSearch '.' (c :: rest) =
        (sizeHere '.' (c :: rest)).orElse (fun _ => sizeSearch '.' rest) := rfl
    rw [stepc] at h
    cases hh : sizeHere ',' (c :: rest) with
    | some r =>
      obtain ⟨n, hn⟩ := comma_here (c :: rest) (by rw [hh]; rfl)
      exact sizeSearch_of_drop (c :: rest) n hn
    | none =>
      rw [hh] at h
      have h' := ih h
      rw [stepd]
      cases hd : sizeHere '.' (c :: rest) with
      | some r => rfl
      | none => exact h'

/-- C7 (amended): `extract_file_size` always returns the first match of the
dot pattern `<number>[.<number>]? <unit>` (unit case-insensitive in
{Mo, MB, Go, GB, ko, KB, To, TB}), reassembled as the matched number and the
raw unit joined by one space, and `None` when there is no such match: the
comma alternative is dead code, because any comma-decimal match contains a
plain-number match that the dot pattern (tried first) already finds — so the
fractional part of comma decimals is dropped, `"1,5 Mo"` giving `"5 Mo"`
(while `"Fichier 6.92 Mo disponible"` gives `"6.92 Mo"` and
`"no size here"` gives `None`). -/
theorem file_size_amended :
    (∀ t : String, extract_file_size t =
       (sizeSearch '.' t.data).map (fun r => String.mk (r.1 ++ ' ' :: r.2))) ∧
    extract_file_size "Fichier 6.92 Mo disponible" = some "6.92 Mo" ∧
    extract_file_size "1,5 Mo" = some "5 Mo" ∧
    extract_file_size "no size here" = none := by
  refine ⟨?_, by decide, by decide, by decide⟩
  intro t
  by_cases ht : t = ""
  · subst ht
    rfl
  · unfold extract_file_size
    rw [if_neg ht]
    cases hd : sizeSearch '.' t.data with
    | some r =>
      obtain ⟨num, unit⟩ := r
      rfl
    | none =>
      have hcn : sizeSearch ',' t.data = none := by
        cases hc : sizeSearch ',' t.data with
        | none => rfl
        | some r =>
          have hds := sizeSearch_comma_dot t.data (by rw [hc]; rfl)
          rw [hd] at hds
          cases hds
      rw [hcn]
      rfl

theorem pyLowerChar_idem (c : Char) : pyLowerChar (pyLowerChar c) = pyLowerChar c := by
  cases hfind : asciiUpperLower.find? (fun p => p.1 = c) with
  | none =>
    have hx : pyLowerChar c = c := by unfold pyLowerChar; rw [hfind]; rfl
    rw [hx]
    exact hx
  | some q =>
    have hp : q ∈ asciiUpperLower := List.mem_of_find?_eq_some hfind
    have hc : q.1 = c := by
      have h0 := List.find?_some hfind
      simpa using h0
    subst hc
    fin_cases hp <;> decide

theorem listReplaceAux_skip (pat rep : List Char) :
    ∀ (l : List Char) (k : Nat), listReplaceAux pat rep l k = listReplaceAux pat rep (l.drop k) 0 := by
  intro l
  induction l with
  | nil => intro k; rw [List.drop_nil]; cases k <;> rfl
  | cons c rest ih =>
    intro k
    cases k with
    | zero => rw [List.drop_zero]
    | succ k => exact ih k

theorem listReplace_cons (pat rep : List Char) (c : Char) (rest : List Char) :
    listReplace pat rep (c :: rest) =
      if pat ≠ [] ∧ pat.isPrefixOf (c :: rest) then
        rep ++ listReplace pat rep ((c :: rest).drop pat.length)
      else c :: listReplace pat rep rest := by
  show listReplaceAux pat rep (c :: rest) 0 = _
  have hstep : listReplaceAux pat rep (c :: rest) 0 =
      if pat ≠ [] ∧ pat.isPrefixOf (c :: rest) then
        rep ++ listReplaceAux pat rep rest (pat.length - 1)
      else c :: listReplaceAux pat rep rest 0 := rfl
  rw [hstep]
  by_cases h : pat ≠ [] ∧ pat.isPrefixOf (c :: rest)
  · rw [if_pos h, if_pos h, listReplaceAux_skip]
    have hlen : (c :: rest).drop pat.length = rest.drop (pat.length - 1) := by
      cases hpat : pat with
      | nil => exact absurd hpat h.1
      | cons p ps => simp
    rw [hlen]
    rfl
  · rw [if_neg h, if_neg h]
    rfl

theorem chain'_append_right {R : Char → Char → Prop} :
    ∀ (a b : List Char), List.Chain' R (a ++ b) → List.Chain' R b := by
  intro a
  induction a with
  | nil => intro b h; exact h
  | cons x a' ih =>
    intro b h
    exact ih b ((List.chain'_cons'.mp h).2)

theorem chain'_drop {R : Char → Char → Prop} (l : List Char) (n : Nat)
    (h : List.Chain' R l) : List.Chain' R (l.drop n) := by
  rw [← List.take_append_drop n l] at h
  exact chain'_append_right (l.take n) (l.drop n) h

theorem chain'_of_nospace (w : List Char) (hw : ∀ c ∈ w, pyIsSpace c = false) :
    List.Chain' noTwoSpaces w := by
  induction w with
  | nil => exact List.chain'_nil
  | cons c w' ih =>
    refine List.chain'_cons'.mpr ⟨?_, ih (fun d hd => hw d (List.mem_cons_of_mem _ hd))⟩
    intro b _
    intro hcb
    have hc := hw c (List.mem_cons_self _ _)
    rw [hcb.1] at hc
    exact absurd hc (by decide)

theorem two_space_isPrefixOf (c d : Char) (r : List Char)
    (h : [' ', ' '].isPrefixOf (c :: d :: r) = true) : c = ' ' ∧ d = ' ' := by
  have h' : (' ' == c && (' ' == d && List.isPrefixOf [] r)) = true := h
  simp only [Bool.and_eq_true] at h'
  exact ⟨(eq_of_beq h'.1).symm, (eq_of_beq h'.2.1).symm⟩

theorem chain'_no_infix_two :
    ∀ l : List Char, List.Chain' noTwoSpaces l → isInfixList [' ', ' '] l = false := by
  intro l
  induction l with
  | nil => intro _; rfl
  | cons c r ih =>
    intro h
    show ([' ', ' '].isPrefixOf (c :: r) || isInfixList [' ', ' '] r) = false
    rw [Bool.or_eq_false_iff]
    refine ⟨?_, ih ((List.chain'_cons'.mp h).2)⟩
    cases r with
    | nil => simp [List.isPrefixOf]
    | cons d r' =>
      cases hp : [' ', ' '].isPrefixOf (c :: d :: r') with
      | false => rfl
      | true =>
        obtain ⟨hc, hd⟩ := two_space_isPrefixOf c d r' hp
        exact absurd ⟨hc, hd⟩ ((List.chain'_cons'.mp h).1 d rfl)

theorem listReplace_of_not_infix (pat rep : List Char) :
    ∀ l : List Char, isInfixList pat l = false → listReplace pat rep l = l := by
  intro l
  induction l with
  | nil => intro h; rfl
  | cons c rest ih =>
    intro h
    have h' : (pat.isPrefixOf (c :: rest) || isInfixList pat rest) = false := h
    rw [Bool.or_eq_false_iff] at h'
    rw [listReplace_cons]
    rw [if_neg (fun hand => by rw [h'.1] at hand; exact Bool.noConfusion hand.2)]
    rw [ih h'.2]

theorem listReplace_ne_nil (pat rep : List Char) (hrep : rep ≠ []) (c : Char) (rest : List Char) :
    listReplace pat rep (c :: rest) ≠ [] := by
  rw [listReplace_cons]
  split
  · intro h
    exact hrep (List.append_eq_nil.mp h).1
  · exact List.cons_ne_nil _ _

theorem mem_listReplace (pat rep : List Char) :
    ∀ (n : Nat) (l : List Char), l.length ≤ n →
      ∀ x ∈ listReplace pat rep l, x ∈ l ∨ x ∈ rep := by
  intro n
  induction n with
  | zero =>
    intro l hl x hx
    have : l = [] := List.length_eq_zero.mp (Nat.le_zero.mp hl)
    subst this
    cases hx
  | succ n ih =>
    intro l hl x hx
    cases l with
    | nil => cases hx
    | cons c rest =>
      rw [listReplace_cons] at hx
      split at hx
      · rename_i hcond
        rcases List.mem_append.mp hx with hx | hx
        · exact Or.inr hx
        · have hplen : 1 ≤ pat.length := List.length_pos.mpr hcond.1
          have hlen : ((c :: rest).drop pat.length).length ≤ n := by
            simp only [List.length_drop, List.length_cons]
            simp only [List.length_cons] at hl
            omega
          rcases ih _ hlen x hx with hx | hx
          · exact Or.inl (List.mem_of_mem_drop hx)
          · exact Or.inr hx
      · rcases List.mem_cons.mp hx with hx | hx
        · exact Or.inl (hx ▸ List.mem_cons_self _ _)
        · have hlen : rest.length ≤ n := by
            simp only [List.length_cons] at hl
            omega
          rcases ih rest hlen x hx with hx | hx
          · exact Or.inl (List.mem_cons_of_mem _ hx)
          · exact Or.inr hx

theorem getLast?_cons_ne_nil {c : Char} {l : List Char} (h : l ≠ []) :
    (c :: l).getLast? = l.getLast? := by
  rw [show c :: l = [c] ++ l from rfl, List.getLast?_append_of_ne_nil _ h]

theorem getLast?_drop_of_ne_nil {l : List Char} {n : Nat} (h : l.drop n ≠ []) :
    (l.drop n).getLast? = l.getLast? := by
  conv_rhs => rw [← List.take_append_drop n l]
  rw [List.getLast?_append_of_ne_nil _ h]

theorem replace_chain_facts (pat rep : List Char) (hpatne : pat ≠ []) (hrepne : rep ≠ [])
    (hrephead : ∀ c, rep.head? = some c → c ≠ ' ')
    (hreplast : ∀ c, rep.getLast? = some c → c ≠ ' ')
    (hrepchain : List.Chain' noTwoSpaces rep) :
    ∀ (n : Nat) (l : List Char), l.length ≤ n → List.Chain' noTwoSpaces l →
      (∀ c, l.getLast? = some c → c ≠ ' ') →
      List.Chain' noTwoSpaces (listReplace pat rep l) ∧
      (∀ c, (listReplace pat rep l).getLast? = some c → c ≠ ' ') ∧
      ((listReplace pat rep l).head? = some ' ' → l.head? = some ' ') := by
  intro n
  induction n with
  | zero =>
    intro l hl _ _
    have hnil : l = [] := List.length_eq_zero.mp (Nat.le_zero.mp hl)
    subst hnil
    refine ⟨List.chain'_nil, ?_, ?_⟩
    · intro c hc
      simp [listReplace, listReplaceAux] at hc
    · intro hc
      simp [listReplace, listReplaceAux] at hc
  | succ n ih =>
    intro l hl hchain hlast
    cases l with
    | nil =>
      refine ⟨List.chain'_nil, ?_, ?_⟩
      · intro c hc
        simp [listReplace, listReplaceAux] at hc
      · intro hc
        simp [listReplace, listReplaceAux] at hc
    | cons c rest =>
      rw [listReplace_cons]
      split
      · rename_i hcond
        have hplen : 1 ≤ pat.length := List.length_pos.mpr hcond.1
        have hlen : ((c :: rest).drop pat.length).length ≤ n := by
          simp only [List.length_drop, List.length_cons]
          simp only [List.length_cons] at hl
          omega
        have hchain2 : List.Chain' noTwoSpaces ((c :: rest).drop pat.length) :=
          chain'_drop _ _ hchain
        have hlast2 : ∀ c', ((c :: rest).drop pat.length).getLast? = some c' → c' ≠ ' ' := by
          intro c' hc'
          by_cases hnil : (c :: rest).drop pat.length = []
          · rw [hnil] at hc'; cases hc'
          · rw [getLast?_drop_of_ne_nil hnil] at hc'
            exact hlast c' hc'
        obtain ⟨ch2, last2, head2⟩ := ih _ hlen hchain2 hlast2
        refine ⟨?_, ?_, ?_⟩
        · refine List.Chain'.append hrepchain ch2 ?_
          intro x hx y _ hxy
          exact hreplast x hx hxy.1
        · intro c' hc'
          by_cases hnil : listReplace pat rep ((c :: rest).drop pat.length) = []
          · rw [hnil, List.append_nil] at hc'
            exact hreplast c' hc'
          · rw [List.getLast?_append_of_ne_nil _ hnil] at hc'
            exact last2 c' hc'
        · intro hh
          exfalso
          cases hrep : rep with
          | nil => exact hrepne hrep
          | cons r0 rs =>
            rw [hrep, List.cons_append, List.head?_cons] at hh
            have hr0 : r0 = ' ' := by injection hh with h0
            exact hrephead r0 (by rw [hrep]; rfl) hr0
      · have hlen : rest.length ≤ n := by
          simp only [List.length_cons] at hl
          omega
        have hchain2 : List.Chain' noTwoSpaces rest := (List.chain'_cons'.mp hchain).2
        have hlast2 : ∀ c', rest.getLast? = some c' → c' ≠ ' ' := by
          intro c' hc'
          have hrne : rest ≠ [] := by
            intro hr
            rw [hr] at hc'
            cases hc'
          exact hlast c' ((getLast?_cons_ne_nil hrne).symm ▸ hc')
        obtain ⟨ch2, last2, head2⟩ := ih rest hlen hchain2 hlast2
        refine ⟨?_, ?_, ?_⟩
        · refine List.chain'_cons'.mpr ⟨?_, ch2⟩
          intro b hb hcb
          have hb2 : (listReplace pat rep rest).head? = some ' ' := by
            rw [hb, hcb.2]
          have hr : rest.head? = some ' ' := head2 hb2
          cases hrest : rest with
          | nil => rw [hrest] at hr; cases hr
          | cons d r2 =>
            rw [hrest, List.head?_cons] at hr
            have hd : d = ' ' := by injection hr with h0
            exact (List.chain'_cons'.mp hchain).1 d (by rw [hrest]; rfl) ⟨hcb.1, hd⟩
        · intro c' hc'
          by_cases hnil : listReplace pat rep rest = []
          · rw [hnil, List.getLast?_singleton] at hc'
            have hrestnil : rest = [] := by
              cases hrest : rest with
              | nil => rfl
              | cons d r2 =>
                exact absurd (hrest ▸ hnil) (listReplace_ne_nil pat rep hrepne d r2)
            have hcc : c' = c := by injection hc' with h0; exact h0.symm
            subst hcc
            apply hlast
            rw [hrestnil]
            rfl
          · rw [getLast?_cons_ne_nil hnil] at hc'
            exact last2 c' hc'
        · intro hh
          rw [List.head?_cons] at hh
          have hc : c = ' ' := by injection hh with h0
          rw [hc]
          rfl

theorem pySplitF_congr :
    ∀ (f1 : Nat), ∀ (f2 : Nat) (l : List Char), l.length ≤ f1 → l.length ≤ f2 →
      pySplitF f1 l = pySplitF f2 l := by
  intro f1
  induction f1 with
  | zero =>
    intro f2 l h1 _
    have : l = [] := List.length_eq_zero.mp (Nat.le_zero.mp h1)
    subst this
    cases f2 <;> rfl
  | succ f1 ih =>
    intro f2 l h1 h2
    cases l with
    | nil => cases f2 <;> rfl
    | cons c r =>
      cases f2 with
      | zero => exact absurd h2 (by simp)
      | succ f2 =>
        show (if pyIsSpace c then pySplitF f1 r
              else (c :: r.takeWhile (fun d => !pyIsSpace d)) ::
                   pySplitF f1 (r.dropWhile (fun d => !pyIsSpace d))) =
             (if pyIsSpace c then pySplitF f2 r
              else (c :: r.takeWhile (fun d => !pyIsSpace d)) ::
                   pySplitF f2 (r.dropWhile (fun d => !pyIsSpace d)))
        have hr : r.length ≤ f1 := by simp only [List.length_cons] at h1; omega
        have hr2 : r.length ≤ f2 := by simp only [List.length_cons] at h2; omega
        have hd1 : (r.dropWhile (fun d => !pyIsSpace d)).length ≤ f1 :=
          le_trans (List.dropWhile_sublist _).length_le hr
        have hd2 : (r.dropWhile (fun d => !pyIsSpace d)).length ≤ f2 :=
          le_trans (List.dropWhile_sublist _).length_le hr2
        rw [ih f2 r hr hr2, ih f2 _ hd1 hd2]

theorem pySplit_cons (c : Char) (r : List Char) :
    pySplit (c :: r) =
      if pyIsSpace c then pySplit r
      else (c :: r.takeWhile (fun d => !pyIsSpace d)) ::
           pySplit (r.dropWhile (fun d => !pyIsSpace d)) := by
  show (if pyIsSpace c then pySplitF r.length r
        else (c :: r.takeWhile (fun d => !pyIsSpace d)) ::
             pySplitF r.length (r.dropWhile (fun d => !pyIsSpace d))) = _
  unfold pySplit
  rw [pySplitF_congr r.length (r.dropWhile (fun d => !pyIsSpace d)).length
        (r.dropWhile (fun d => !pyIsSpace d)) (List.dropWhile_sublist _).length_le le_rfl]

theorem pySplit_words :
    ∀ (n : Nat) (l : List Char), l.length ≤ n → ∀ w ∈ pySplit l,
      w ≠ [] ∧ (∀ c ∈ w, pyIsSpace c = false) ∧ (∀ c ∈ w, c ∈ l) := by
  intro n
  induction n with
  | zero =>
    intro l hl w hw
    have : l = [] := List.length_eq_zero.mp (Nat.le_zero.mp hl)
    subst this
    cases hw
  | succ n ih =>
    intro l hl w hw
    cases l with
    | nil => cases hw
    | cons c r =>
      rw [pySplit_cons] at hw
      by_cases hc : pyIsSpace c = true
      · rw [if_pos hc] at hw
        have hr : r.length ≤ n := by simp only [List.length_cons] at hl; omega
        obtain ⟨h1, h2, h3⟩ := ih r hr w hw
        exact ⟨h1, h2, fun d hd => List.mem_cons_of_mem _ (h3 d hd)⟩
      · rw [if_neg hc] at hw
        rcases List.mem_cons.mp hw with hw | hw
        · subst hw
          refine ⟨List.cons_ne_nil _ _, ?_, ?_⟩
          · intro d hd
            rcases List.mem_cons.mp hd with hd | hd
            · subst hd
              exact Bool.not_eq_true _ ▸ hc
            · have := List.mem_takeWhile_imp hd
              simpa using this
          · intro d hd
            rcases List.mem_cons.mp hd with hd | hd
            · subst hd; exact List.mem_cons_self _ _
            · exact List.mem_cons_of_mem _ ((List.takeWhile_sublist _).mem hd)
        · have hr : (r.dropWhile (fun d => !pyIsSpace d)).length ≤ n := by
            have := (List.dropWhile_sublist (l := r) (fun d => !pyIsSpace d)).length_le
            simp only [List.length_cons] at hl
            omega
          obtain ⟨h1, h2, h3⟩ := ih _ hr w hw
          refine ⟨h1, h2, fun d hd => List.mem_cons_of_mem _
            ((List.dropWhile_sublist _).mem (h3 d hd))⟩

theorem joinWords_two (w w2 : List Char) (ws : List (List Char)) :
    joinWords (w :: w2 :: ws) = w ++ ' ' :: joinWords (w2 :: ws) := rfl

theorem joinWords_head (w : List Char) (ws : List (List Char)) (hw : w ≠ []) :
    (joinWords (w :: ws)).head? = w.head? := by
  cases w with
  | nil => exact absurd rfl hw
  | cons d w' => cases ws <;> rfl

theorem joinWords_ne_nil (w : List Char) (ws : List (List Char)) (hw : w ≠ []) :
    joinWords (w :: ws) ≠ [] := by
  intro h
  have := joinWords_head w ws hw
  rw [h] at this
  cases w with
  | nil => exact hw rfl
  | cons d w' => cases this

theorem joinWords_mem :
    ∀ (ws : List (List Char)) (x : Char), x ∈ joinWords ws → x = ' ' ∨ ∃ w ∈ ws, x ∈ w := by
  intro ws
  induction ws with
  | nil => intro x hx; cases hx
  | cons w ws ih =>
    intro x hx
    cases ws with
    | nil =>
      exact Or.inr ⟨w, List.mem_cons_self _ _, hx⟩
    | cons w2 ws' =>
      rw [joinWords_two] at hx
      rcases List.mem_append.mp hx with hx | hx
      · exact Or.inr ⟨w, List.mem_cons_self _ _, hx⟩
      · rcases List.mem_cons.mp hx with hx | hx
        · exact Or.inl hx
        · rcases ih x hx with hx | ⟨w', hw', hx⟩
          · exact Or.inl hx
          · exact Or.inr ⟨w', List.mem_cons_of_mem _ hw', hx⟩

theorem joinWords_facts :
    ∀ ws : List (List Char), (∀ w ∈ ws, w ≠ [] ∧ ∀ c ∈ w, pyIsSpace c = false) →
      List.Chain' noTwoSpaces (joinWords ws) ∧
      (∀ c, (joinWords ws).head? = some c → c ≠ ' ') ∧
      (∀ c, (joinWords ws).getLast? = some c → c ≠ ' ') := by
  intro ws
  induction ws with
  | nil =>
    intro _
    refine ⟨List.chain'_nil, ?_, ?_⟩
    · intro c hc
      simp [joinWords] at hc
    · intro c hc
      simp [joinWords] at hc
  | cons w ws ih =>
    intro hws
    obtain ⟨hwne, hwsp⟩ := hws w (List.mem_cons_self _ _)
    have hspace : ∀ c ∈ w, c ≠ ' ' := by
      intro c hc he
      have := hwsp c hc
      rw [he] at this
      exact absurd this (by decide)
    cases ws with
    | nil =>
      refine ⟨chain'_of_nospace w hwsp, ?_, ?_⟩
      · intro c hc
        exact hspace c (List.mem_of_mem_head? (hc ▸ rfl))
      · intro c hc
        exact hspace c (List.mem_of_mem_getLast? (hc ▸ rfl))
    | cons w2 ws' =>
      obtain ⟨ichain, ihead, ilast⟩ := ih (fun u hu => hws u (List.mem_cons_of_mem _ hu))
      obtain ⟨hw2ne, _⟩ := hws w2 (List.mem_cons_of_mem _ (List.mem_cons_self _ _))
      have hjne : joinWords (w2 :: ws') ≠ [] := joinWords_ne_nil w2 ws' hw2ne
      rw [joinWords_two]
      refine ⟨?_, ?_, ?_⟩
      · refine List.Chain'.append (chain'_of_nospace w hwsp) ?_ ?_
        · refine List.chain'_cons'.mpr ⟨?_, ichain⟩
          intro b hb hsb
          exact ihead b hb hsb.2
        · intro x hx y _ hxy
          exact hspace x (List.mem_of_mem_getLast? (hx ▸ rfl)) hxy.1
      · intro c hc
        rw [List.head?_append_of_ne_nil _ hwne] at hc
        exact hspace c (List.mem_of_mem_head? (hc ▸ rfl))
      · intro c hc
        rw [List.getLast?_append_of_ne_nil _ (List.cons_ne_nil _ _),
            getLast?_cons_ne_nil hjne] at hc
        exact ilast c hc

theorem head_dropWhile_false {p : Char → Bool} :
    ∀ (r : List Char) (d : Char) (t' : List Char), r.dropWhile p = d :: t' → p d = false := by
  intro r
  induction r with
  | nil => intro d t' h; cases h
  | cons x xs ih =>
    intro d t' h
    rw [List.dropWhile_cons] at h
    split at h
    · exact ih d t' h
    · rename_i hx
      injection h with h1 h2
      subst h1
      exact Bool.not_eq_true _ ▸ hx

theorem joinWords_cons_of_ne_nil (w : List Char) (ws : List (List Char)) (hws : ws ≠ []) :
    joinWords (w :: ws) = w ++ ' ' :: joinWords ws := by
  cases ws with
  | nil => exact absurd rfl hws
  | cons a b => rfl

theorem join_split_self :
    ∀ (n : Nat) (l : List Char), l.length ≤ n →
      (∀ c ∈ l, pyIsSpace c = true → c = ' ') →
      List.Chain' noTwoSpaces l →
      (∀ c, l.head? = some c → c ≠ ' ') →
      (∀ c, l.getLast? = some c → c ≠ ' ') →
      joinWords (pySplit l) = l := by
  intro n
  induction n with
  | zero =>
    intro l hl _ _ _ _
    have hnil : l = [] := List.length_eq_zero.mp (Nat.le_zero.mp hl)
    subst hnil
    rfl
  | succ n ih =>
    intro l hl hplain hchain hhead hlast
    cases l with
    | nil => rfl
    | cons c r =>
      have hcne : c ≠ ' ' := hhead c rfl
      have hcsp : pyIsSpace c = false := by
        cases hb : pyIsSpace c
        · rfl
        · exact absurd (hplain c (List.mem_cons_self _ _) hb) hcne
      rw [pySplit_cons, if_neg (fun hh => by rw [hcsp] at hh; exact Bool.noConfusion hh)]
      cases ht : r.dropWhile (fun d => !pyIsSpace d) with
      | nil =>
        have hw : r.takeWhile (fun d => !pyIsSpace d) = r := by
          have htd := List.takeWhile_append_dropWhile (p := fun d => !pyIsSpace d) (l := r)
          rw [ht, List.append_nil] at htd
          exact htd
        rw [hw]
        rfl
      | cons d t' =>
        have hd : (fun d => !pyIsSpace d) d = false := head_dropWhile_false r d t' ht
        have hdsp : pyIsSpace d = true := by simpa using hd
        have hdmem : d ∈ r := (List.dropWhile_sublist _).mem (ht ▸ List.mem_cons_self d t')
        have hdeq : d = ' ' := hplain d (List.mem_cons_of_mem _ hdmem) hdsp
        subst hdeq
        have hsplit : r = r.takeWhile (fun d => !pyIsSpace d) ++ ' ' :: t' := by
          conv_lhs => rw [← List.takeWhile_append_dropWhile (p := fun d => !pyIsSpace d) (l := r)]
          rw [ht]
      -- t' is non-empty, otherwise the string would end in a space
        have ht'ne : t' ≠ [] := by
          intro h0
          subst h0
          have hend : (c :: r).getLast? = some ' ' := by
            conv_lhs => rw [hsplit]
            rw [show c :: (r.takeWhile (fun d => !pyIsSpace d) ++ [' ']) =
                  (c :: r.takeWhile (fun d => !pyIsSpace d)) ++ [' '] from rfl]
            rw [List.getLast?_append_of_ne_nil _ (List.cons_ne_nil _ _), List.getLast?_singleton]
          exact hlast ' ' hend rfl
        have hchain2 : List.Chain' noTwoSpaces (' ' :: t') := by
          have hc2 : List.Chain' noTwoSpaces (c :: r) := hchain
          rw [hsplit] at hc2
          exact chain'_append_right (c :: r.takeWhile (fun d => !pyIsSpace d)) (' ' :: t') hc2
        have hheadt' : ∀ c', t'.head? = some c' → c' ≠ ' ' := by
          intro c' hc' he
          subst he
          exact (List.chain'_cons'.mp hchain2).1 ' ' hc' ⟨rfl, rfl⟩
        have hlastt' : ∀ c', t'.getLast? = some c' → c' ≠ ' ' := by
          intro c' hc'
          apply hlast
          conv_lhs => rw [hsplit]
          rw [show c :: (r.takeWhile (fun d => !pyIsSpace d) ++ ' ' :: t') =
                (c :: r.takeWhile (fun d => !pyIsSpace d) ++ [' ']) ++ t' from by simp]
          rw [List.getLast?_append_of_ne_nil _ ht'ne]
          exact hc'
        have hplaint' : ∀ c' ∈ t', pyIsSpace c' = true → c' = ' ' := by
          intro c' hc'
          refine hplain c' ?_
          rw [hsplit]
          exact List.mem_cons_of_mem _ (List.mem_append_right _ (List.mem_cons_of_mem _ hc'))
        have hchaint' : List.Chain' noTwoSpaces t' := (List.chain'_cons'.mp hchain2).2
        have hlent' : t'.length ≤ n := by
          have hlr := congrArg List.length hsplit
          simp only [List.length_append, List.length_cons] at hlr
          simp only [List.length_cons] at hl
          omega
        have iht' := ih t' hlent' hplaint' hchaint' hheadt' hlastt'
        have hsplitsp : pySplit (' ' :: t') = pySplit t' := by
          rw [pySplit_cons, if_pos (by decide)]
        have hpst' : pySplit t' ≠ [] := by
          cases ht'c : t' with
          | nil => exact absurd ht'c ht'ne
          | cons e t2 =>
            have he : e ≠ ' ' := hheadt' e (by rw [ht'c]; rfl)
            have hesp : pyIsSpace e = false := by
              cases hb : pyIsSpace e
              · rfl
              · exact absurd (hplaint' e (by rw [ht'c]; exact List.mem_cons_self _ _) hb) he
            rw [pySplit_cons, if_neg (fun hh => by rw [hesp] at hh; exact Bool.noConfusion hh)]
            exact List.cons_ne_nil _ _
        rw [hsplitsp, joinWords_cons_of_ne_nil _ _ hpst', iht']
        rw [show (c :: r.takeWhile (fun d => !pyIsSpace d)) ++ ' ' :: t' =
              c :: (r.takeWhile (fun d => !pyIsSpace d) ++ ' ' :: t') from rfl]
        rw [← hsplit]

theorem rapportRep_chain : List.Chain' noTwoSpaces rapportRep := by
  have h : List.Chain' noTwoSpaces ['r','a','p','p','o','r','t',' ','s','u','r',' ','l','e'] := by
    simp [List.chain'_cons, noTwoSpaces]
  exact h

theorem contains_eq_false_of_not_mem {c : Char} {l : List Char} (h : c ∉ l) :
    l.contains c = false := by
  cases hb : l.contains c
  · rfl
  · exact absurd (List.mem_of_elem_eq_true hb) h

theorem mem_pyStrip {x : List Char} {c : Char} (hc : c ∈ pyStrip x) : c ∈ x := by
  unfold pyStrip at hc
  rw [List.mem_reverse] at hc
  have hc2 := (List.dropWhile_sublist _).mem hc
  rw [List.mem_reverse] at hc2
  exact (List.dropWhile_sublist _).mem hc2

theorem normalizeList_inv (l : List Char) : NormInv (normalizeList l) := by
  have hn2lower : ∀ c ∈ (pyStrip (pyLower l)).filter
      (fun c => !strippedPunctuation.contains c), pyLowerChar c = c := by
    intro c hc
    have hc1 : c ∈ pyStrip (pyLower l) := (List.mem_filter.mp hc).1
    have hc2 : c ∈ pyLower l := mem_pyStrip hc1
    obtain ⟨c0, _, rfl⟩ := List.mem_map.mp hc2
    exact pyLowerChar_idem c0
  have hn2ban : ∀ c ∈ (pyStrip (pyLower l)).filter
      (fun c => !strippedPunctuation.contains c), c ∉ strippedPunctuation := by
    intro c hc hmem
    have hfc := (List.mem_filter.mp hc).2
    simp only [Bool.not_eq_true'] at hfc
    have h2 : strippedPunctuation.contains c = true := List.elem_eq_true_of_mem hmem
    rw [hfc] at h2
    exact Bool.noConfusion h2
  have hwords := fun w hw => pySplit_words
    ((pyStrip (pyLower l)).filter (fun c => !strippedPunctuation.contains c)).length _
    le_rfl w hw
  have hjf := joinWords_facts _ (fun w hw => ⟨(hwords w hw).1, (hwords w hw).2.1⟩)
  have hrep := replace_chain_facts rapportPat rapportRep (by decide) (by decide)
      (by decide) (by decide) rapportRep_chain
      (joinWords (pySplit ((pyStrip (pyLower l)).filter
        (fun c => !strippedPunctuation.contains c)))).length _ le_rfl hjf.1 hjf.2.2
  have hstep5 : listReplace [' ', ' '] [' ']
      (listReplace rapportPat rapportRep
        (joinWords (pySplit ((pyStrip (pyLower l)).filter
          (fun c => !strippedPunctuation.contains c))))) =
      listReplace rapportPat rapportRep
        (joinWords (pySplit ((pyStrip (pyLower l)).filter
          (fun c => !strippedPunctuation.contains c)))) :=
    listReplace_of_not_infix _ _ _ (chain'_no_infix_two _ hrep.1)
  have hnorm : normalizeList l =
      listReplace rapportPat rapportRep
        (joinWords (pySplit ((pyStrip (pyLower l)).filter
          (fun c => !strippedPunctuation.contains c)))) := hstep5
  rw [hnorm]
  have hn3chars : ∀ c ∈ joinWords (pySplit ((pyStrip (pyLower l)).filter
      (fun c => !strippedPunctuation.contains c))),
      c = ' ' ∨ (∃ w ∈ pySplit ((pyStrip (pyLower l)).filter
        (fun c => !strippedPunctuation.contains c)), c ∈ w) := joinWords_mem _
  refine ⟨?_, ?_, ?_, hrep.1, ?_, hrep.2.1⟩
  · intro c hc
    rcases mem_listReplace rapportPat rapportRep _ _ le_rfl c hc with h | h
    · rcases hn3chars c h with h2 | ⟨w, hw, hcw⟩
      · rw [h2]; rfl
      · exact hn2lower c ((hwords w hw).2.2 c hcw)
    · have hall : ∀ c ∈ rapportRep, pyLowerChar c = c := by decide
      exact hall c h
  · intro c hc
    rcases mem_listReplace rapportPat rapportRep _ _ le_rfl c hc with h | h
    · rcases hn3chars c h with h2 | ⟨w, hw, hcw⟩
      · rw [h2]; decide
      · exact hn2ban c ((hwords w hw).2.2 c hcw)
    · have hall : ∀ c ∈ rapportRep, c ∉ strippedPunctuation := by decide
      exact hall c h
  · intro c hc hsp
    rcases mem_listReplace rapportPat rapportRep _ _ le_rfl c hc with h | h
    · rcases hn3chars c h with h2 | ⟨w, hw, hcw⟩
      · exact h2
      · have := (hwords w hw).2.1 c hcw
        rw [this] at hsp
        exact Bool.noConfusion hsp
    · have hall : ∀ c ∈ rapportRep, pyIsSpace c = true → c = ' ' := by decide
      exact hall c h hsp
  · intro c hc he
    subst he
    exact hjf.2.1 ' ' (hrep.2.2 hc) rfl

theorem map_pyLowerChar_self (y : List Char) (h : ∀ c ∈ y, pyLowerChar c = c) :
    pyLower y = y := by
  unfold pyLower
  induction y with
  | nil => rfl
  | cons c r ih =>
    rw [List.map_cons, h c (List.mem_cons_self _ _),
        ih (fun d hd => h d (List.mem_cons_of_mem _ hd))]

theorem pyStrip_self (y : List Char)
    (hplain : ∀ c ∈ y, pyIsSpace c = true → c = ' ')
    (hhead : ∀ c, y.head? = some c → c ≠ ' ')
    (hlast : ∀ c, y.getLast? = some c → c ≠ ' ') : pyStrip y = y := by
  unfold pyStrip
  have h1 : y.dropWhile pyIsSpace = y := by
    cases hy : y with
    | nil => rfl
    | cons c r =>
      refine List.dropWhile_cons_of_neg ?_
      intro hsp
      have hc : c = ' ' := hplain c (by rw [hy]; exact List.mem_cons_self _ _) hsp
      exact hhead c (by rw [hy]; rfl) hc
  rw [h1]
  have h2 : y.reverse.dropWhile pyIsSpace = y.reverse := by
    cases hy : y.reverse with
    | nil => rfl
    | cons c r =>
      refine List.dropWhile_cons_of_neg ?_
      intro hsp
      have hcl : y.getLast? = some c := by
        rw [← List.head?_reverse, hy]
        rfl
      have hcy : c ∈ y := List.mem_of_mem_getLast? (hcl ▸ rfl)
      exact hlast c hcl (hplain c hcy hsp)
  rw [h2, List.reverse_reverse]

theorem normalizeList_fixed (y : List Char) (hinv : NormInv y)
    (hpat : isInfixList rapportPat y = false) : normalizeList y = y := by
  obtain ⟨hlow, hban, hplain, hchain, hhead, hlast⟩ := hinv
  have h1 : pyLower y = y := map_pyLowerChar_self y hlow
  have h2 : pyStrip y = y := pyStrip_self y hplain hhead hlast
  have h3 : y.filter (fun c => !strippedPunctuation.contains c) = y := by
    refine List.filter_eq_self.mpr ?_
    intro c hc
    simp only [Bool.not_eq_true']
    exact contains_eq_false_of_not_mem (hban c hc)
  have h4 : joinWords (pySplit y) = y :=
    join_split_self y.length y le_rfl hplain hchain hhead hlast
  have h5 : listReplace rapportPat rapportRep y = y :=
    listReplace_of_not_infix _ _ y hpat
  have h6 : listReplace [' ', ' '] [' '] y = y :=
    listReplace_of_not_infix _ _ y (chain'_no_infix_two y hchain)
  show listReplace [' ', ' '] [' ']
      (listReplace rapportPat rapportRep
        (joinWords (pySplit ((pyStrip (pyLower y)).filter
          (fun c => !strippedPunctuation.contains c))))) = y
  rw [h1, h2, h3, h4, h5, h6]

/-- C6 (amended): the title normalizer is idempotent on every string whose
normalized form does not contain the substitution source `"rapport sur l"`
(the substitution target `"rapport sur le"` still contains the source, so a
second application appends another `e` on such strings, as the
counterexample shows; on all other strings a second application is the
identity because the normalized form is already lower-cased, stripped,
punctuation-free, whitespace-collapsed, and untouched by both
substitutions). -/
theorem normalize_idempotent_amended :
    ∀ s : String, isInfixList rapportPat (_normalize_title s).data = false →
      _normalize_title (_normalize_title s) = _normalize_title s := by
  intro s h
  by_cases hs : s = ""
  · subst hs
    rfl
  · have h1 : _normalize_title s = String.mk (normalizeList s.data) := by
      unfold _normalize_title
      rw [if_neg hs]
    rw [h1] at h ⊢
    by_cases h2 : String.mk (normalizeList s.data) = ""
    · rw [h2]
      rfl
    · conv_lhs => unfold _normalize_title
      rw [if_neg h2]
      show String.mk (normalizeList (normalizeList s.data)) = _
      rw [normalizeList_fixed (normalizeList s.data) (normalizeList_inv s.data) h]

/-- Witness for C6 (amended) at a concrete string. -/
theorem normalize_idempotent_amended_witness :
    _normalize_title (_normalize_title "Hello,  World!") = _normalize_title "Hello,  World!" :=
  normalize_idempotent_amended "Hello,  World!" (by decide)

end AngspeScraper
